import Mathlib

/-
Verification of cargo-wop (src/cargo-wop.rs) against its specification.

The development is a shallow embedding of the program, module by module:
* `CargoWop.Argparse` embeds the `argparse` module (command resolution).
* `CargoWop.Execution` embeds the relevant parts of the `execution` module
  (default-action merging and re-dispatch, exit-code handling, build-output
  parsing, artifact copying).
* `CargoWop.Parsing` embeds the `manifest_parsing` module (the descriptor
  extraction state machine).
* `CargoWop.Normalization` embeds the `manifest_normalization` module
  (manifest completion and the generic path-rewriting traversal).

External collaborators (the cargo subprocess, the filesystem, path
canonicalization, the TOML text parser and JSON text parser) are abstracted:
subprocess exit codes and path resolution enter as function parameters, and
parsed TOML/JSON documents are represented by explicit inductive value types.
-/

set_option autoImplicit false

instance {ε α : Type} [DecidableEq ε] [DecidableEq α] : DecidableEq (Except ε α)
  | .ok a, .ok b =>
    if h : a = b then .isTrue (by rw [h]) else .isFalse (by simp [h])
  | .ok _, .error _ => .isFalse (by simp)
  | .error _, .ok _ => .isFalse (by simp)
  | .error e, .error f =>
    if h : e = f then .isTrue (by rw [h]) else .isFalse (by simp [h])

namespace CargoWop

/-! ## Argparse: data model

Mirrors the `Args`, `DefaultAction` and `CargoCall` types of the `argparse`
module.  Arguments are modelled as `String` (the source uses `OsString`;
all comparisons in the source go through UTF-8 views). -/

structure DefaultAction where
  target : String
  args : List String
  deriving DecidableEq, Repr

structure CargoCall where
  command : String
  target : String
  args : List String
  deriving DecidableEq, Repr

inductive Args where
  | defaultAction (call : DefaultAction)
  | genericCargoCall (call : CargoCall)
  | buildCargoCall (call : CargoCall)
  | installCargoCall (call : CargoCall)
  | manifest (target : String)
  | writeManifest (target : String)
  | help
  | listTemplates
  | new (template : String) (target : String)
  deriving DecidableEq, Repr

def Args.isDefaultAction : Args → Bool
  | .defaultAction _ => true
  | _ => false

/-! ## Argparse: `has_extension`

Embeds `has_extension` / `Path::extension`: the file name is the last normal
component of the (Unix) path; it has an extension when it contains a dot that
is not its first character. -/

def fileNameOf (s : List Char) : Option (List Char) :=
  match ((s.splitOn '/').filter (fun c => c ≠ [] ∧ c ≠ ['.'])).getLast? with
  | none => none
  | some f => if f = ['.', '.'] then none else some f

def extensionOf (s : List Char) : Option (List Char) :=
  match fileNameOf s with
  | none => none
  | some f =>
    let after := (f.reverse.takeWhile (fun c => c ≠ '.')).reverse
    if after.length = f.length then none
    else if f.length = after.length + 1 then none
    else some after

def hasExtension (s : String) : Bool :=
  (extensionOf s.toList).isSome

/-! ## Argparse: argument normalization (`CargoCall::split_args` / `normalize`) -/

/-- Embeds `self.args.iter().position(|s| s == "--")` followed by the split:
returns the parts before and after the first `"--"`, or `none` if absent. -/
def splitAtDashDash : List String → Option (List String × List String)
  | [] => none
  | a :: rest =>
    if a = "--" then some ([], rest)
    else match splitAtDashDash rest with
      | some (pre, post) => some (a :: pre, post)
      | none => none

/-- Embeds `CargoCall::split_args`. -/
def CargoCall.splitArgs (c : CargoCall) : List String × List String :=
  if c.command ≠ "run" then (c.args, [])
  else match splitAtDashDash c.args with
    | some (pre, post) => (pre, post)
    | none => ([], c.args)

/-- Embeds `CargoCall::normalize`. -/
def CargoCall.normalize (c : CargoCall) : Except String CargoCall :=
  let split := c.splitArgs
  let cargoArgs := split.1
  let commandsArgs := split.2
  let cargoArgs :=
    if c.command = "build" ∨ c.command = "run" then cargoArgs ++ ["--release"]
    else cargoArgs
  let args :=
    if commandsArgs = [] then cargoArgs
    else cargoArgs ++ ["--"] ++ commandsArgs
  let command :=
    if c.command = "build-debug" then "build"
    else if c.command = "run-debug" then "run"
    else c.command
  .ok { command := command, target := c.target, args := args }

/-- Embeds `CargoCall::into_args`. -/
def CargoCall.intoArgs (c : CargoCall) : Args :=
  if c.command = "build" then .buildCargoCall c
  else if c.command = "install" then .installCargoCall c
  else .genericCargoCall c

/-- Embeds `is_cargo_command`. -/
def isCargoCommand (command : String) : Bool :=
  command ∈ ["bench", "build", "build-debug", "check", "clean", "clippy", "fmt",
    "install", "locate-project", "metadata", "pkgid", "run", "run-debug", "tree",
    "test", "verify-project"]

/-! ## Argparse: `parse_args` -/

/-- Embeds the keyword dispatch of `parse_args` (everything after the
extension check on `args[1]`). -/
def parseCommand (command : String) (restArgs : List String) : Except String Args :=
  if command = "manifest" then
    match restArgs with
    | [t] => .ok (.manifest t)
    | _ => .error "The manifest command expects the target source file as a single argument"
  else if command = "write-manifest" then
    match restArgs with
    | [t] => .ok (.writeManifest t)
    | _ => .error "The manifest command expects the target source file as a single argument"
  else if command = "help" ∨ command = "--help" then
    if restArgs = [] then .ok .help
    else .error "The help command does not understand extra arguments"
  else if command = "new" then
    match restArgs with
    | [] => .ok .listTemplates
    | [template, target] => .ok (.new template target)
    | _ => .error "Invalid new call"
  else if isCargoCommand command then
    match restArgs with
    | [] => .error "Cargo commands require a target source file"
    | target :: rest =>
      match (CargoCall.mk command target rest).normalize with
      | .ok call => .ok call.intoArgs
      | .error e => .error e
  else .error ("Unknown command: " ++ command)

/-- Embeds `parse_args`. -/
def parse_args (args : List String) : Except String Args :=
  match args with
  | a0 :: a1 :: rest =>
    if a0 ≠ "wop" then .error "First argument must be wop"
    else if hasExtension a1 then .ok (.defaultAction ⟨a1, rest⟩)
    else parseCommand a1 rest
  | _ => .error "Need at least two  arguments"

/-! ## Execution: default-action merging and guarded re-dispatch -/

/-- Embeds `Vec::insert(index, element)`: `none` models the panic when
`index > len`. -/
def vecInsert {α : Type} (index : Nat) (element : α) (l : List α) : Option (List α) :=
  if index ≤ l.length then some (l.take index ++ element :: l.drop index)
  else none

/-- Embeds `merge_default_args`.  The result is `none` exactly when the
source's `full_args.insert(2, ...)` would panic. -/
def merge_default_args (call : DefaultAction) (defaultAction : Option (List String)) :
    Option (List String) :=
  let fullArgs := ["wop"]
  let fullArgs :=
    match defaultAction with
    | some default => fullArgs ++ default
    | none => fullArgs ++ ["run"]
  let fullArgs := fullArgs ++ call.args
  vecInsert 2 call.target fullArgs

/-- Embeds the `Args::DefaultAction` branch of `execute_args` up to the
re-dispatch: merge the configured default action into a synthetic argument
list, re-parse it, and reject (the source panics via `assert!`) any result
that resolves to `DefaultAction` again.  A `.ok` result is the action the
recursion-free `execute_args` call then runs. -/
def defaultActionStep (call : DefaultAction) (defaultAction : Option (List String)) :
    Except String Args :=
  match merge_default_args call defaultAction with
  | none => .error "panic: insertion index out of bounds"
  | some merged =>
    match parse_args merged with
    | .error e => .error e
    | .ok args =>
      if args.isDefaultAction then .error "Recursion detected in default action"
      else .ok args

/-! ## Execution: exit codes

`ExecEnv` abstracts the external collaborators of `execute_args`: the exit
code of the delegated cargo subprocess (`execute_cargo_call`, and the direct
`cargo install` spawn), the artifact-collection re-run
(`collect_build_artifacts`) and the artifact copy (`copy_build_artifacts`),
and the informational/default branches that the exit-code claims do not
inspect. -/

structure ExecEnv where
  runCargo : CargoCall → Int
  runInstallCargo : CargoCall → Int
  collectArtifacts : CargoCall → Except String (List String)
  copyArtifacts : List String → Except String Unit
  runOther : Args → Except String Int

/-- Embeds the three toolchain-delegated branches of `execute_args`
(`GenericCargoCall`, `BuildCargoCall`, `InstallCargoCall`); all other
variants are delegated to the abstract environment. -/
def execute_call_args (env : ExecEnv) : Args → Except String Int
  | .genericCargoCall call => .ok (env.runCargo call)
  | .buildCargoCall call =>
    let result := env.runCargo call
    if result = 0 then
      match env.collectArtifacts call with
      | .error e => .error e
      | .ok artifacts =>
        match env.copyArtifacts artifacts with
        | .error e => .error e
        | .ok _ => .ok 0
    else .error "Error during build. Cannot copy build artifacts"
  | .installCargoCall call => .ok (env.runInstallCargo call)
  | other => env.runOther other

/-- Embeds `fn main`: `std::process::exit(main_impl()?)` exits with the
returned code on `Ok`, and with the generic failure code 1 when `main_impl`
returns an error (Rust's `Termination` for `Err`). -/
def toolExitCode (r : Except String Int) : Int :=
  match r with
  | .ok code => code
  | .error _ => 1

/-! ## Execution: build output parsing and artifact copying

JSON events are modelled as already-parsed values (`serde_json` is an
external collaborator; `parse_build_output` reads one JSON value per output
line). -/

/-- `str::starts_with` (stated over the character lists so that it is
structurally recursive and evaluates by `decide`). -/
def strStartsWith (s pre : String) : Bool :=
  pre.toList.isPrefixOf s.toList

inductive Json where
  | str : String → Json
  | num : Int → Json
  | bool : Bool → Json
  | null : Json
  | arr : List Json → Json
  | obj : List (String × Json) → Json

/-- Embeds `serde_json::Value::get` on objects. -/
def Json.get (j : Json) (key : String) : Option Json :=
  match j with
  | .obj fields => (fields.find? (fun kv => kv.1 = key)).map (fun kv => kv.2)
  | _ => none

/-- Embeds `serde_json::Value::as_str`. -/
def Json.asStr : Json → Option String
  | .str s => some s
  | _ => none

/-- Embeds `serde_json::Value::as_array`. -/
def Json.asArr : Json → Option (List Json)
  | .arr items => some items
  | _ => none

/-- Effectful map over a list in `Except` (the source's `for` loops that
push into a result vector and early-return errors). -/
def mapME {α β : Type} (f : α → Except String β) : List α → Except String (List β)
  | [] => .ok []
  | a :: rest =>
    match f a with
    | .error e => .error e
    | .ok b =>
      match mapME f rest with
      | .error e => .error e
      | .ok bs => .ok (b :: bs)

/-- Embeds `parse_build_output` (with `project_info.name` passed as `name`):
keep `compiler-artifact` events whose `package_id` starts with the project
name followed by a space, and collect their `filenames`. -/
def parse_build_output (events : List Json) (name : String) : Except String (List String) :=
  match events with
  | [] => .ok []
  | value :: rest =>
    match (value.get "reason").bind Json.asStr with
    | none => .error "Invalid cargo output reason not a string"
    | some reason =>
      if reason ≠ "compiler-artifact" then parse_build_output rest name
      else
        match (value.get "package_id").bind Json.asStr with
        | none => .error "Invalid compiler-artifact: package_id not a string"
        | some packageId =>
          if ¬ strStartsWith packageId (name ++ " ") then parse_build_output rest name
          else
            match (value.get "filenames").bind Json.asArr with
            | none => .error "Invalid compiler-artifact: filenames not an array"
            | some filenames =>
              match mapME (fun f => match f.asStr with
                | some s => .ok s
                | none => .error "Invalid file name not a string") filenames with
              | .error e => .error e
              | .ok fs =>
                match parse_build_output rest name with
                | .error e => .error e
                | .ok result => .ok (fs ++ result)

/-- The `ProjectOptions` struct (derived from the `[cargo-wop]` section). -/
structure ProjectOptions where
  filter : List (String × String)
  defaultAction : Option (List String)

/-- `HashMap::get` on the filter map. -/
def ProjectOptions.filterGet (options : ProjectOptions) (src : String) : Option String :=
  ((options.filter.find? (fun kv => kv.1 = src))).map (fun kv => kv.2)

/-- Embeds `Path::file_name` for the artifact source paths. -/
def pathFileName (s : String) : Option String :=
  (fileNameOf s.toList).map List.asString

/-- Embeds `copy_build_artifacts`, recording the performed copies as
`(source path, destination file name)` pairs instead of filesystem writes. -/
def copy_build_artifacts (froms : List String) (options : ProjectOptions) :
    Except String (List (String × String)) :=
  match froms with
  | [] => .ok []
  | src :: rest =>
    match pathFileName src with
    | none => .error "Invalid source filename"
    | some srcFileName =>
      let dstFileName :=
        match options.filterGet srcFileName with
        | some dst => dst
        | none => srcFileName
      if dstFileName = "" then copy_build_artifacts rest options
      else
        match copy_build_artifacts rest options with
        | .error e => .error e
        | .ok copies => .ok ((src, dstFileName) :: copies)

/-! ## Manifest parsing: the descriptor extraction state machine

Embeds the `manifest_parsing` module.  Lines are lists of characters (each
line without its terminating newline, as produced by `BufRead::lines`).  The
final step of the source's `parse_manifest` — handing the accumulated text to
`toml::from_str` — is the external TOML parser; `extract_manifest` models the
state machine itself and returns the accumulated raw descriptor text
(`none` standing for the source's empty-document results). -/

abbrev Str := List Char

/-- Structural `str::starts_with` on character lists. -/
def startsWith (s pre : Str) : Bool :=
  pre.isPrefixOf s

/-- `str::trim_start`: drop all leading whitespace. -/
def trimStart (s : Str) : Str :=
  s.dropWhile Char.isWhitespace

inductive LineStart where
  | docComment
  | manifestStart
  | manifestEnd
  | other
  deriving DecidableEq, Repr

/-- Embeds `LineStart::from`. -/
def lineStart (line : Str) : LineStart :=
  if startsWith line ("//! ```cargo".toList) then .manifestStart
  else if startsWith line ("//! ```".toList) then .manifestEnd
  else if startsWith line ("//!".toList) then .docComment
  else .other

inductive ParseState where
  | start
  | docComment
  | manifest
  deriving DecidableEq, Repr

/-- The loop of `parse_manifest`.  In the `(Manifest, DocComment)` case the
source strips the known `"//!"` prefix (`strip_prefix(..).unwrap()`), which
is `List.drop 3`, then trims leading whitespace and appends the line plus a
newline to the accumulator. -/
def extractGo : ParseState → Str → List Str → Except String (Option Str)
  | state, _, [] =>
    if state = .manifest then .error "Incomplete manifest" else .ok none
  | state, result, line :: rest =>
    match state, lineStart line with
    | .start, .other => .ok none
    | .docComment, .other => .ok none
    | .start, .docComment => extractGo .docComment result rest
    | .start, .manifestEnd => extractGo .start result rest
    | .docComment, .docComment => extractGo .docComment result rest
    | .docComment, .manifestEnd => extractGo .docComment result rest
    | .start, .manifestStart => extractGo .manifest result rest
    | .docComment, .manifestStart => extractGo .manifest result rest
    | .manifest, .docComment =>
      extractGo .manifest (result ++ trimStart (line.drop 3) ++ ['\n']) rest
    | .manifest, .manifestEnd => .ok (some result)
    | .manifest, .manifestStart => .error "Invalid manifest"
    | .manifest, .other => .error "Invalid manifest"

/-- Embeds `parse_manifest` up to (not including) the final TOML text parse:
the raw text of the embedded descriptor block, or `none` when no block is
present. -/
def extract_manifest (lines : List Str) : Except String (Option Str) :=
  extractGo .start [] lines

/-- The wrapping inverse claimed by the spec: indent each document line with
the comment prefix plus one space and surround with the block markers. -/
def wrapManifest (docLines : List Str) : List Str :=
  ["//! ```cargo".toList] ++ docLines.map (fun l => "//! ".toList ++ l) ++ ["//! ```".toList]

/-- Join document lines back into document text, one newline per line. -/
def joinLines (docLines : List Str) : Str :=
  (docLines.map (fun l => l ++ ['\n'])).flatten

/-! ## Manifest normalization: the TOML document model

`toml::Value` with the `preserve_order` feature: tables are ordered key/value
maps modelled as association lists.  `tinsert` has `IndexMap::insert`
semantics (replace in place when the key exists, append otherwise); float and
datetime scalars are omitted (no claim inspects them). -/

inductive TomlVal where
  | str : String → TomlVal
  | int : Int → TomlVal
  | boolean : Bool → TomlVal
  | arr : List TomlVal → TomlVal
  | table : List (String × TomlVal) → TomlVal

abbrev Table := List (String × TomlVal)

/-- `Map::get`. -/
def tget : Table → String → Option TomlVal
  | [], _ => none
  | (k, v) :: rest, key => if k = key then some v else tget rest key

/-- `Map::contains_key`. -/
def tcontains (t : Table) (key : String) : Bool :=
  (tget t key).isSome

/-- `Map::insert` (`IndexMap` semantics: an existing key keeps its position
and gets the new value; a new key is appended at the end). -/
def tinsert : Table → String → TomlVal → Table
  | [], key, v => [(key, v)]
  | (k, w) :: rest, key, v =>
    if k = key then (k, v) :: rest else (k, w) :: tinsert rest key v

/-- `Map::remove` of a key.  The claims exercise removal only when the key is
absent (a no-op), so the order of the remainder is unobserved. -/
def tremove : Table → String → Table
  | [], _ => []
  | (k, w) :: rest, key => if k = key then rest else (k, w) :: tremove rest key

/-- Effectful map over the values of a table (the `for (_, item) in current`
loops). -/
def mapMEntries (f : TomlVal → Except String TomlVal) : Table → Except String Table
  | [] => .ok []
  | (k, v) :: rest =>
    match f v with
    | .error e => .error e
    | .ok v' =>
      match mapMEntries f rest with
      | .error e => .error e
      | .ok rest' => .ok ((k, v') :: rest')

/-! ## Manifest normalization: the pipeline

The execution environment enters as two abstract path-resolution functions
(total, as in the test environment `LocalEnv`):
* `R : String` stands for `env.normalize(target_path)` rendered as a UTF-8
  string — the script's resolved path inserted by `patch_target`;
* `stem : String` stands for the script's file stem (the identity name);
* `J : String → String` stands for
  `p ↦ env.normalize(project_source_path.join(p))` — the leaf rewrite of the
  path-normalization traversal. -/

/-- Embeds `strip_custom_section`. -/
def strip_custom_section (root : Table) : Table :=
  tremove root "cargo-wop"

/-- Embeds `ensure_valid_package`. -/
def ensure_valid_package (root : Table) (name : String) : Except String Table :=
  let root :=
    if ¬ tcontains root "package" then tinsert root "package" (.table []) else root
  match tget root "package" with
  | some (.table package) =>
    let package :=
      if ¬ tcontains package "name" then tinsert package "name" (.str name) else package
    let package :=
      if ¬ tcontains package "version" then tinsert package "version" (.str "0.1.0") else package
    let package :=
      if ¬ tcontains package "edition" then tinsert package "edition" (.str "2018") else package
    .ok (tinsert root "package" (.table package))
  | _ => .error "Invalid manifest: package is not a table"

/-- Embeds `ensure_at_least_a_single_target`. -/
def ensure_at_least_a_single_target (root : Table) : Except String Table :=
  let hasSingleBin : Except String Bool :=
    if tcontains root "bin" then
      match tget root "bin" with
      | some (.arr bins) => .ok (!bins.isEmpty)
      | _ => .error "Invalid manifest"
    else .ok false
  match hasSingleBin with
  | .error e => .error e
  | .ok hasSingleBin =>
    let hasDefinition := tcontains root "lib" || hasSingleBin
    if hasDefinition then .ok root
    else
      let root := tinsert root "bin" (.arr [])
      match tget root "bin" with
      | some (.arr bins) =>
        .ok (tinsert root "bin" (.arr (if bins.isEmpty then bins ++ [.table []] else bins)))
      | _ => .error "Invalid manifest: bin is not an array"

/-- Embeds `patch_target` (`R` is the already-resolved script path that the
source computes as `env.normalize(path)?`). -/
def patch_target (target : TomlVal) (R : String) (name : String) : Except String TomlVal :=
  match target with
  | .table bin =>
    let bin := tinsert bin "path" (.str R)
    let bin :=
      if ¬ tcontains bin "name" then tinsert bin "name" (.str name) else bin
    .ok (.table bin)
  | _ => .error "Cannot patch non table target"

/-- Embeds `patch_all_targets`. -/
def patch_all_targets (root : Table) (R : String) (name : String) : Except String Table :=
  let afterLib : Except String Table :=
    match tget root "lib" with
    | some lib =>
      match patch_target lib R name with
      | .ok lib' => .ok (tinsert root "lib" lib')
      | .error e => .error e
    | none => .ok root
  match afterLib with
  | .error e => .error e
  | .ok root =>
    match tget root "bin" with
    | none => .ok root
    | some (.arr bins) =>
      match mapME (fun b => patch_target b R name) bins with
      | .ok bins' => .ok (tinsert root "bin" (.arr bins'))
      | .error e => .error e
    | some _ => .error "Invalid manifest: bin not an array"

/-- The `PATH_NORMALIZATION` key-path table. -/
def PATH_NORMALIZATION : List (List String) :=
  [ ["lib", "path"],
    ["bin", "", "path"],
    ["example", "", "path"],
    ["test", "", "path"],
    ["bench", "", "path"],
    ["package", "build"],
    ["dependencies", "", "path"],
    ["dev-dependencies", "", "path"],
    ["build-dependencies", "", "path"],
    ["patch", "", "", "path"],
    ["target", "", "dependencies", "", "path"] ]

/-- Embeds `_normalize_table_item`: rewrite the `key` field of a table
through the leaf resolver if present (absence is a silent no-op; a non-string
value is an error). -/
def normTableItem (J : String → String) (t : Table) (key : String) : Except String Table :=
  match tget t key with
  | none => .ok t
  | some (.str p) => .ok (tinsert t key (.str (J p)))
  | some _ => .error "Invalid manifest: non string path"

/-- Embeds `_normalize_paths`.  The remaining key-path
`path[depth..]` is passed as a list; a singleton remainder is the source's
`depth + 1 == path.len()` leaf case. -/
def normPathsGo (J : String → String) : TomlVal → List String → Except String TomlVal
  | current, [] => .ok current
  | current, key :: rest =>
    if rest = [] then
      match current with
      | .table t =>
        match normTableItem J t key with
        | .ok t' => .ok (.table t')
        | .error e => .error e
      | _ => .ok current
    else
      match current with
      | .arr items =>
        if key = "" then
          match mapME (fun item => normPathsGo J item rest) items with
          | .ok items' => .ok (.arr items')
          | .error e => .error e
        else .error "Unexpected array in path"
      | .table t =>
        if key = "" then
          match mapMEntries (fun v => normPathsGo J v rest) t with
          | .ok t' => .ok (.table t')
          | .error e => .error e
        else
          match tget t key with
          | some child =>
            match normPathsGo J child rest with
            | .ok child' => .ok (.table (tinsert t key child'))
            | .error e => .error e
          | none => .ok (.table t)
      | _ => .error "Invalid value type"
  termination_by _ path => path.length
  decreasing_by all_goals simp_wf

/-- One entry of the `for path in PATH_NORMALIZATION` loop of
`normalize_paths`. -/
def normalizePathsStep (J : String → String) (root : Table) (path : List String) :
    Except String Table :=
  match path with
  | [] => .ok root
  | key :: rest =>
    match tget root key with
    | none => .ok root
    | some child =>
      match normPathsGo J child rest with
      | .ok child' => .ok (tinsert root key child')
      | .error e => .error e

/-- The `for path in PATH_NORMALIZATION` loop. -/
def foldSteps (J : String → String) : List (List String) → Table → Except String Table
  | [], root => .ok root
  | path :: paths, root =>
    match normalizePathsStep J root path with
    | .ok root' => foldSteps J paths root'
    | .error e => .error e

/-- Embeds `normalize_paths`. -/
def normalize_paths (J : String → String) (root : Table) : Except String Table :=
  foldSteps J PATH_NORMALIZATION root

/-- Embeds `normalize_manifest`. -/
def normalize_manifest (J : String → String) (R : String) (stem : String)
    (manifest : TomlVal) : Except String TomlVal :=
  match manifest with
  | .table root =>
    let root := strip_custom_section root
    match ensure_valid_package root stem with
    | .error e => .error e
    | .ok root =>
      match ensure_at_least_a_single_target root with
      | .error e => .error e
      | .ok root =>
        match patch_all_targets root R stem with
        | .error e => .error e
        | .ok root =>
          match normalize_paths J root with
          | .error e => .error e
          | .ok root => .ok (.table root)
  | _ => .error "Can only handle manifests that are tables"

/-! ## Helper lemmas -/

theorem splitAtDashDash_eq_none {args : List String} (h : "--" ∉ args) :
    splitAtDashDash args = none := by
  induction args with
  | nil => rfl
  | cons a rest ih =>
    simp only [List.mem_cons, not_or] at h
    rw [splitAtDashDash, if_neg (fun hc => h.1 hc.symm), ih h.2]

/-! ## C5: command resolution examples -/

/-- C5: command resolution maps the spec's five example invocations exactly
as stated: a lone file-suffixed token yields the default action with no
residual arguments; `run-debug` yields a generic `run` call with empty
arguments; `build` appends `--release`; `run` with `--verbose -- arg` splits
and rejoins around the separator with `--release` appended to the
cargo-directed part; `manifest` with an extra argument is a usage error. -/
theorem c5_command_resolution_examples :
    parse_args ["wop", "example.ext"] =
      .ok (.defaultAction ⟨"example.ext", []⟩)
    ∧ parse_args ["wop", "run-debug", "example.ext"] =
      .ok (.genericCargoCall ⟨"run", "example.ext", []⟩)
    ∧ parse_args ["wop", "build", "example.ext"] =
      .ok (.buildCargoCall ⟨"build", "example.ext", ["--release"]⟩)
    ∧ parse_args ["wop", "run", "example.ext", "--verbose", "--", "arg"] =
      .ok (.genericCargoCall ⟨"run", "example.ext", ["--verbose", "--release", "--", "arg"]⟩)
    ∧ parse_args ["wop", "manifest", "example.ext", "extra"] =
      .error "The manifest command expects the target source file as a single argument" := by
  decide

/-! ## C10: `run` arguments without a separator are script-directed -/

/-- C10: for a `run` call whose residual arguments contain no `--`
separator, every residual argument is classified as script-directed: the
normalized list is `["--release"]` when there are no residual arguments, and
`["--release", "--"]` followed by all of them otherwise. -/
theorem c10_run_without_separator (target : String) (args : List String)
    (h : "--" ∉ args) :
    CargoCall.normalize ⟨"run", target, args⟩ =
      .ok ⟨"run", target,
        if args = [] then ["--release"] else ["--release", "--"] ++ args⟩ := by
  rcases eq_or_ne args [] with rfl | hne
  · simp [CargoCall.normalize, CargoCall.splitArgs, splitAtDashDash_eq_none h]
  · simp [CargoCall.normalize, CargoCall.splitArgs, splitAtDashDash_eq_none h, hne]

/-- Witness for C10 at a concrete input. -/
theorem c10_witness :
    CargoCall.normalize ⟨"run", "example.rs", ["--verbose"]⟩ =
      .ok ⟨"run", "example.rs", ["--release", "--", "--verbose"]⟩ := by
  have h := c10_run_without_separator "example.rs" ["--verbose"] (by decide)
  simpa using h

/-! ## C2: default-action re-entry cannot resolve to DefaultAction -/

/-- C2: whenever the default-action re-entry proceeds (the merged synthetic
argument list parses and passes the recursion guard), the action it proceeds
with is never `DefaultAction` again: any synthesized list that would resolve
to `DefaultAction` is rejected by the guard, for all inputs, so default-action
expansion cannot recurse. -/
theorem c2_default_action_no_recursion (call : DefaultAction)
    (defaultAction : Option (List String)) (a : Args)
    (h : defaultActionStep call defaultAction = .ok a) :
    a.isDefaultAction = false := by
  unfold defaultActionStep at h
  rcases hm : merge_default_args call defaultAction with _ | merged <;> simp only [hm] at h
  · exact absurd h (by simp)
  · rcases hp : parse_args merged with e | args <;> simp only [hp] at h
    · exact absurd h (by simp)
    · cases hd : args.isDefaultAction with
      | true => simp [hd] at h
      | false =>
        simp [hd] at h
        rw [← h]
        exact hd

/-- Witness for C2 at a concrete input. -/
theorem c2_witness :
    (Args.genericCargoCall ⟨"run", "foo.rs", ["--release"]⟩).isDefaultAction = false :=
  c2_default_action_no_recursion ⟨"foo.rs", []⟩ none _ (by decide)

/-! ## C1: exit-code propagation -/

/-- A concrete environment whose cargo subprocess exits with code 101. -/
def env101 : ExecEnv :=
  ⟨fun _ => 101, fun _ => 101, fun _ => .ok [], fun _ => .ok (), fun _ => .ok 0⟩

/-- A concrete environment whose cargo subprocess exits with code 0. -/
def env0 : ExecEnv :=
  ⟨fun _ => 0, fun _ => 0, fun _ => .ok [], fun _ => .ok (), fun _ => .ok 0⟩

/-- Counterexample to C1: a build-classified invocation whose cargo
subprocess exits with code 101 makes the tool exit with the generic failure
code 1, not 101 — the `BuildCargoCall` branch turns any non-zero cargo exit
into an error (`ensure!(result == 0, ...)`) instead of propagating it. -/
theorem c1_counterexample :
    env101.runCargo ⟨"build", "example.rs", ["--release"]⟩ = 101
    ∧ toolExitCode
        (execute_call_args env101 (.buildCargoCall ⟨"build", "example.rs", ["--release"]⟩)) = 1
    ∧ (1 : Int) ≠ 101 := by
  decide

/-- C1 (amended): generic and install cargo calls propagate the subprocess
exit code unchanged; a build-classified call propagates the exit code only
when it is zero (returning 0 after successful artifact collection and
copying), while a non-zero cargo exit makes the tool fail with an error and
exit with the generic failure code 1. -/
theorem c1_exit_code_propagation (env : ExecEnv) (call : CargoCall) :
    execute_call_args env (.genericCargoCall call) = .ok (env.runCargo call)
    ∧ execute_call_args env (.installCargoCall call) = .ok (env.runInstallCargo call)
    ∧ (env.runCargo call = 0 → ∀ fs, env.collectArtifacts call = .ok fs →
        env.copyArtifacts fs = .ok () → execute_call_args env (.buildCargoCall call) = .ok 0)
    ∧ (env.runCargo call ≠ 0 →
        toolExitCode (execute_call_args env (.buildCargoCall call)) = 1) := by
  refine ⟨rfl, rfl, ?_, ?_⟩
  · intro h0 fs hc hcp
    simp [execute_call_args, h0, hc, hcp]
  · intro hne
    simp [execute_call_args, toolExitCode, if_neg hne]

/-- Witness for C1 (amended) at concrete inputs. -/
theorem c1_witness :
    execute_call_args env101 (.genericCargoCall ⟨"check", "example.rs", []⟩) = .ok 101
    ∧ execute_call_args env0 (.buildCargoCall ⟨"build", "example.rs", ["--release"]⟩) = .ok 0
    ∧ toolExitCode
        (execute_call_args env101 (.buildCargoCall ⟨"build", "example.rs", ["--release"]⟩)) = 1 :=
  ⟨(c1_exit_code_propagation env101 ⟨"check", "example.rs", []⟩).1,
   (c1_exit_code_propagation env0 ⟨"build", "example.rs", ["--release"]⟩).2.2.1 rfl [] rfl rfl,
   (c1_exit_code_propagation env101 ⟨"build", "example.rs", ["--release"]⟩).2.2.2 (by decide)⟩

/-! ## C9: artifact collection and filtering -/

@[simp] theorem Json.asStr_str (s : String) : (Json.str s).asStr = some s := rfl

@[simp] theorem Json.asArr_arr (l : List Json) : (Json.arr l).asArr = some l := rfl

theorem fileNameOf_ne_nil {s : List Char} {f : List Char} (h : fileNameOf s = some f) :
    f ≠ [] := by
  rw [fileNameOf] at h
  split at h
  · exact absurd h (by simp)
  · rename_i g hl
    have hmem := List.mem_of_getLast?_eq_some hl
    have hg : g ≠ [] := by
      have := (List.mem_filter.mp hmem).2
      simp only [decide_eq_true_eq] at this
      exact this.1
    split at h
    · exact absurd h (by simp)
    · cases h
      exact hg

theorem pathFileName_ne_empty {src f : String} (h : pathFileName src = some f) :
    f ≠ "" := by
  unfold pathFileName at h
  rcases hf : fileNameOf src.toList with _ | g <;> rw [hf] at h
  · exact absurd h (by simp)
  · simp at h
    subst h
    intro hc
    exact fileNameOf_ne_nil hf (congrArg String.data hc)

theorem mapME_map_str (fs : List String) :
    mapME (fun f => match Json.asStr f with
      | some s => .ok s
      | none => .error "Invalid file name not a string") (fs.map Json.str) = .ok fs := by
  induction fs with
  | nil => rfl
  | cons f rest ih => simp [mapME, ih]

/-- C9: only `compiler-artifact` events whose package id starts with the
project name followed by a single space contribute filenames (other reasons
and other package-name prefixes contribute nothing), and each collected
artifact is mapped through the `ProjectOptions` filter: copied under the
mapped name when present, under its own name when unmapped, and silently
skipped when the mapped destination is the empty string. -/
theorem c9_artifact_collection_and_filtering :
    (∀ e rest name r, e.get "reason" = some (.str r) → r ≠ "compiler-artifact" →
      parse_build_output (e :: rest) name = parse_build_output rest name)
    ∧ (∀ e rest name pid, e.get "reason" = some (.str "compiler-artifact") →
        e.get "package_id" = some (.str pid) →
        strStartsWith pid (name ++ " ") = false →
        parse_build_output (e :: rest) name = parse_build_output rest name)
    ∧ (∀ e rest name pid fs, e.get "reason" = some (.str "compiler-artifact") →
        e.get "package_id" = some (.str pid) →
        strStartsWith pid (name ++ " ") = true →
        e.get "filenames" = some (.arr (fs.map Json.str)) →
        parse_build_output (e :: rest) name =
          match parse_build_output rest name with
          | .error er => .error er
          | .ok result => .ok (fs ++ result))
    ∧ (∀ src rest options f, pathFileName src = some f →
        options.filterGet f = some "" →
        copy_build_artifacts (src :: rest) options = copy_build_artifacts rest options)
    ∧ (∀ src rest options f dst, pathFileName src = some f →
        options.filterGet f = some dst → dst ≠ "" →
        copy_build_artifacts (src :: rest) options =
          match copy_build_artifacts rest options with
          | .error e => .error e
          | .ok copies => .ok ((src, dst) :: copies))
    ∧ (∀ src rest options f, pathFileName src = some f →
        options.filterGet f = none →
        copy_build_artifacts (src :: rest) options =
          match copy_build_artifacts rest options with
          | .error e => .error e
          | .ok copies => .ok ((src, f) :: copies)) := by
  refine ⟨?_, ?_, ?_, ?_, ?_, ?_⟩
  · intro e rest name r hr hne
    simp [parse_build_output, hr, hne]
  · intro e rest name pid hr hp hs
    simp [parse_build_output, hr, hp, hs]
  · intro e rest name pid fs hr hp hs hf
    simp [parse_build_output, hr, hp, hs, hf, mapME_map_str]
  · intro src rest options f hf hfg
    simp [copy_build_artifacts, hf, hfg]
  · intro src rest options f dst hf hfg hdst
    simp [copy_build_artifacts, hf, hfg, hdst]
  · intro src rest options f hf hfg
    have hne := pathFileName_ne_empty hf
    simp [copy_build_artifacts, hf, hfg, hne]

/-- Witness for C9 at the spec's concrete examples: the `dep`-prefixed
event contributes nothing, the `myproj`-prefixed event contributes its
filenames, and the filter drops `a.out`, renames `b.out` to `c.out` and
keeps `d.out`. -/
theorem c9_witness :
    parse_build_output
      [ .obj [("reason", .str "compiler-artifact"), ("package_id", .str "myproj 0.1.0"),
          ("filenames", .arr [.str "t/a.out", .str "t/b.out", .str "t/d.out"])],
        .obj [("reason", .str "compiler-artifact"), ("package_id", .str "dep 0.1.0"),
          ("filenames", .arr [.str "t/dep.out"])] ] "myproj" =
      .ok ["t/a.out", "t/b.out", "t/d.out"]
    ∧ copy_build_artifacts ["t/a.out", "t/b.out", "t/d.out"]
        ⟨[("a.out", ""), ("b.out", "c.out")], none⟩ =
      .ok [("t/b.out", "c.out"), ("t/d.out", "d.out")] := by
  have h1 := c9_artifact_collection_and_filtering.2.2.1
    (Json.obj [("reason", .str "compiler-artifact"), ("package_id", .str "myproj 0.1.0"),
      ("filenames", .arr [.str "t/a.out", .str "t/b.out", .str "t/d.out"])])
    [Json.obj [("reason", .str "compiler-artifact"), ("package_id", .str "dep 0.1.0"),
      ("filenames", .arr [.str "t/dep.out"])]]
    "myproj" "myproj 0.1.0" ["t/a.out", "t/b.out", "t/d.out"] rfl rfl (by decide) rfl
  have h2 := c9_artifact_collection_and_filtering.2.1
    (Json.obj [("reason", .str "compiler-artifact"), ("package_id", .str "dep 0.1.0"),
      ("filenames", .arr [.str "t/dep.out"])])
    [] "myproj" "dep 0.1.0" rfl rfl (by decide)
  have h3 := c9_artifact_collection_and_filtering.2.2.2.1
    "t/a.out" ["t/b.out", "t/d.out"] ⟨[("a.out", ""), ("b.out", "c.out")], none⟩
    "a.out" rfl rfl
  have h4 := c9_artifact_collection_and_filtering.2.2.2.2.1
    "t/b.out" ["t/d.out"] ⟨[("a.out", ""), ("b.out", "c.out")], none⟩
    "b.out" "c.out" rfl rfl (by decide)
  have h5 := c9_artifact_collection_and_filtering.2.2.2.2.2
    "t/d.out" [] ⟨[("a.out", ""), ("b.out", "c.out")], none⟩
    "d.out" rfl rfl
  refine ⟨?_, ?_⟩
  · rw [h1, h2]; rfl
  · rw [h3, h4, h5]; rfl

/-! ## C3: scalars during the path-rewriting traversal -/

def TomlVal.isScalar : TomlVal → Bool
  | .str _ => true
  | .int _ => true
  | .boolean _ => true
  | _ => false

/-- Counterexample to C3: a dependency declared directly as a version string
(`dependencies.anyhow = "1.0"`) puts a scalar at the second-to-last depth of
the `["dependencies", "", "path"]` key-path, and the traversal silently
skips it (returning the document unchanged) instead of raising a hard
structural error. -/
theorem c3_counterexample :
    normalize_paths (fun s => s) [("dependencies", .table [("anyhow", .str "1.0")])] =
      .ok [("dependencies", .table [("anyhow", .str "1.0")])] := by
  simp [normalize_paths, PATH_NORMALIZATION, foldSteps, normalizePathsStep, normPathsGo,
    normTableItem, mapME, mapMEntries, tget, tinsert]

/-- C3 (amended): during the traversal, a scalar found strictly above the
second-to-last depth of a key-path (two or more segments remaining) is a
hard structural error, but a scalar found at the second-to-last depth —
where the leaf field would be rewritten — is silently skipped, by design
(a dependency may be assigned a plain version string). -/
theorem c3_scalar_handling :
    (∀ (J : String → String) (key : String) (c : TomlVal), c.isScalar = true →
      normPathsGo J c [key] = .ok c)
    ∧ (∀ (J : String → String) (key : String) (rest : List String) (c : TomlVal),
        rest ≠ [] → c.isScalar = true →
        normPathsGo J c (key :: rest) = .error "Invalid value type") := by
  constructor
  · intro J key c hc
    cases c <;> simp_all [TomlVal.isScalar] <;> rw [normPathsGo] <;> simp
  · intro J key rest c hrest hc
    cases c <;> simp_all [TomlVal.isScalar] <;> rw [normPathsGo] <;> simp [hrest]

/-- Witness for C3 (amended) at concrete inputs. -/
theorem c3_witness :
    normPathsGo (fun s => s) (.str "1.0") ["path"] = .ok (.str "1.0")
    ∧ normPathsGo (fun s => s) (.str "1.0") ["", "path"] =
      .error "Invalid value type" :=
  ⟨c3_scalar_handling.1 _ "path" _ rfl,
   c3_scalar_handling.2 _ "" ["path"] _ (by simp) rfl⟩

/-! ## C4: extraction vs. wrapping -/

theorem lineStart_wrapped {l : Str} (h1 : startsWith l ("```".toList) = false) :
    lineStart ("//! ".toList ++ l) = .docComment := by
  have hpre : ¬ ("```".toList <+: l) := by
    intro hc
    have ht : startsWith l ("```".toList) = true := by
      simpa [startsWith, List.isPrefixOf_iff_prefix] using hc
    rw [h1] at ht
    exact absurd ht (by simp)
  unfold lineStart
  rw [if_neg, if_neg, if_pos]
  · show startsWith ("//! ".toList ++ l) ("//!".toList) = true
    simp only [startsWith, List.isPrefixOf_iff_prefix]
    exact ⟨' ' :: l, rfl⟩
  · show ¬ startsWith ("//! ".toList ++ l) ("//! ```".toList) = true
    simp only [startsWith, List.isPrefixOf_iff_prefix]
    intro hc
    exact hpre ((List.prefix_append_right_inj ("//! ".toList)).mp hc)
  · show ¬ startsWith ("//! ".toList ++ l) ("//! ```cargo".toList) = true
    simp only [startsWith, List.isPrefixOf_iff_prefix]
    intro hc
    have hc' : ("```cargo".toList <+: l) :=
      (List.prefix_append_right_inj ("//! ".toList)).mp hc
    exact hpre (List.IsPrefix.trans (by decide) hc')

theorem trimStart_space_cons (l : Str) : trimStart (' ' :: l) = trimStart l := rfl

theorem extractGo_wrapped (docLines : List Str)
    (h : ∀ l ∈ docLines, trimStart l = l ∧ startsWith l ("```".toList) = false) :
    ∀ acc : Str,
    extractGo .manifest acc
      (docLines.map (fun l => "//! ".toList ++ l) ++ ["//! ```".toList]) =
      .ok (some (acc ++ joinLines docLines)) := by
  induction docLines with
  | nil =>
    intro acc
    have hend : lineStart ("//! ```".toList) = .manifestEnd := by decide
    simp only [List.map_nil, List.nil_append, extractGo, hend, joinLines, List.flatten_nil,
      List.append_nil]
  | cons l ls ih =>
    intro acc
    have hl := h l (List.mem_cons_self l ls)
    have hls : ∀ x ∈ ls, trimStart x = x ∧ startsWith x ("```".toList) = false :=
      fun x hx => h x (List.mem_cons_of_mem l hx)
    have hcls : lineStart ("//! ".toList ++ l) = .docComment := lineStart_wrapped hl.2
    have hdrop : ("//! ".toList ++ l).drop 3 = ' ' :: l := rfl
    simp only [List.map_cons, List.cons_append, List.append_eq, extractGo, hcls]
    rw [hdrop, trimStart_space_cons, hl.1, ih hls]
    simp [joinLines, List.append_assoc]

/-- Counterexample to C4: wrapping the one-line document `" x"` (a line with
one leading space) and extracting yields `"x\n"`, not the original `" x\n"` —
extraction strips the comment prefix and then *all* leading whitespace
(`trim_start`), not exactly one space. -/
theorem c4_counterexample :
    extract_manifest (wrapManifest [" x".toList]) = .ok (some ("x\n".toList))
    ∧ joinLines [" x".toList] = " x\n".toList
    ∧ ("x\n".toList ≠ " x\n".toList) := by
  decide

/-- C4 (amended): for document texts none of whose lines begin with
whitespace or with three backticks, extraction is exactly inverse to
wrapping: prefixing each line with the comment prefix plus one space,
surrounding with the open and close marker lines, and extracting yields the
original document text back, newlines preserved.  (A line with leading
whitespace is returned with all of it stripped, and a line starting with
three backticks would be classified as a marker, so both are excluded.) -/
theorem c4_round_trip (docLines : List Str)
    (h : ∀ l ∈ docLines, trimStart l = l ∧ startsWith l ("```".toList) = false) :
    extract_manifest (wrapManifest docLines) = .ok (some (joinLines docLines)) := by
  have hopen : lineStart ("//! ```cargo".toList) = .manifestStart := by decide
  unfold extract_manifest wrapManifest
  simp only [List.cons_append, List.nil_append, List.singleton_append, List.append_eq,
    extractGo, hopen]
  rw [extractGo_wrapped docLines h]
  simp

/-- Witness for C4 (amended) at a concrete document. -/
theorem c4_witness :
    extract_manifest (wrapManifest ["[dependencies]".toList, "anyhow = \"1.0\"".toList]) =
      .ok (some ("[dependencies]\nanyhow = \"1.0\"\n".toList)) := by
  have h := c4_round_trip ["[dependencies]".toList, "anyhow = \"1.0\"".toList] (by decide)
  exact h.trans (by decide)

/-! ## C6: extraction errors exactly at malformed blocks

`findBlockBody` and `blockBodyMalformed` transcribe the spec's description
of when a descriptor block is present and when it is malformed: the leading
run of comment lines is scanned for a block-open marker (a non-comment line
or end of input first means no block); past the open marker, comment lines
continue the block, a close marker ends it well-formed, and a second open
marker, a non-comment line, or end of input make it malformed. -/

def findBlockBody : List Str → Option (List Str)
  | [] => none
  | l :: rest =>
    match lineStart l with
    | .manifestStart => some rest
    | .other => none
    | _ => findBlockBody rest

def blockBodyMalformed : List Str → Bool
  | [] => true
  | l :: rest =>
    match lineStart l with
    | .manifestEnd => false
    | .docComment => blockBodyMalformed rest
    | _ => true

def specMalformed (lines : List Str) : Bool :=
  match findBlockBody lines with
  | none => false
  | some body => blockBodyMalformed body

theorem extractGo_manifest_error_iff (body : List Str) : ∀ acc : Str,
    (∃ e, extractGo .manifest acc body = .error e) ↔ blockBodyMalformed body = true := by
  induction body with
  | nil => intro acc; simp [extractGo, blockBodyMalformed]
  | cons l rest ih =>
    intro acc
    rcases hls : lineStart l <;>
      simp [extractGo, blockBodyMalformed, hls, ih]

theorem extractGo_preBlock (lines : List Str) : ∀ (state : ParseState) (acc : Str),
    state = .start ∨ state = .docComment →
    (findBlockBody lines = none → extractGo state acc lines = .ok none)
    ∧ (∀ body, findBlockBody lines = some body →
        extractGo state acc lines = extractGo .manifest acc body) := by
  induction lines with
  | nil =>
    intro state acc hs
    constructor
    · intro _
      rcases hs with rfl | rfl <;> simp [extractGo]
    · intro body hb
      exact absurd hb (by simp [findBlockBody])
  | cons l rest ih =>
    intro state acc hs
    rcases hls : lineStart l
    case docComment =>
      rcases hs with rfl | rfl <;>
        simpa [extractGo, findBlockBody, hls] using ih .docComment acc (Or.inr rfl)
    case manifestStart =>
      constructor
      · intro hb
        rw [findBlockBody] at hb
        simp [hls] at hb
      · intro body hb
        rw [findBlockBody] at hb
        simp only [hls] at hb
        cases hb
        rcases hs with rfl | rfl <;> simp [extractGo, hls]
    case manifestEnd =>
      rcases hs with rfl | rfl
      · simpa [extractGo, findBlockBody, hls] using ih .start acc (Or.inl rfl)
      · simpa [extractGo, findBlockBody, hls] using ih .docComment acc (Or.inr rfl)
    case other =>
      constructor
      · intro _
        rcases hs with rfl | rfl <;> simp [extractGo, hls]
      · intro body hb
        rw [findBlockBody] at hb
        simp [hls] at hb

/-- C6: extraction errors exactly at malformed blocks: for every script with
no descriptor block in its leading comment run, extraction yields the empty
document and never an error; and extraction fails if and only if a block was
opened and then the input ends while still inside it, a second block-open
marker appears inside it, or a non-comment line appears inside it.  (The
subsequent TOML parse of the extracted text is the external parser, outside
the extraction state machine.) -/
theorem c6_extraction_error_conditions (lines : List Str) :
    (findBlockBody lines = none → extract_manifest lines = .ok none)
    ∧ ((∃ e, extract_manifest lines = .error e) ↔ specMalformed lines = true) := by
  have hpre := extractGo_preBlock lines .start [] (Or.inl rfl)
  constructor
  · exact fun h => hpre.1 h
  · rcases hb : findBlockBody lines with _ | body
    · rw [extract_manifest] at *
      rw [hpre.1 hb]
      simp [specMalformed, hb]
    · rw [extract_manifest] at *
      rw [hpre.2 body hb]
      simp only [specMalformed, hb]
      exact extractGo_manifest_error_iff body []

/-- Witness for C6 at concrete inputs: a script that is plain code from the
first line extracts to the empty document, and a script that opens a block
and ends extracts to an error. -/
theorem c6_witness :
    extract_manifest ["fn main()".toList] = .ok none
    ∧ (∃ e, extract_manifest ["//! ```cargo".toList] = .error e) :=
  ⟨(c6_extraction_error_conditions ["fn main()".toList]).1 (by decide),
   (c6_extraction_error_conditions ["//! ```cargo".toList]).2.mpr (by decide)⟩

/-! ## Table lemmas -/

theorem tget_tinsert_same (t : Table) (k : String) (v : TomlVal) :
    tget (tinsert t k v) k = some v := by
  induction t with
  | nil => simp [tinsert, tget]
  | cons kv rest ih =>
    obtain ⟨k', w⟩ := kv
    by_cases h : k' = k <;> simp [tinsert, tget, h, ih]

theorem tget_tinsert_ne (t : Table) (k k' : String) (v : TomlVal) (h : k ≠ k') :
    tget (tinsert t k v) k' = tget t k' := by
  induction t with
  | nil => simp [tinsert, tget, h]
  | cons kv rest ih =>
    obtain ⟨k'', w⟩ := kv
    by_cases h2 : k'' = k
    · subst h2
      simp [tinsert, tget, h]
    · simp only [tinsert, if_neg h2, tget]
      by_cases h3 : k'' = k' <;> simp [h3, ih]

theorem tinsert_tget_same (t : Table) (k : String) (v : TomlVal) (h : tget t k = some v) :
    tinsert t k v = t := by
  induction t with
  | nil => simp [tget] at h
  | cons kv rest ih =>
    obtain ⟨k', w⟩ := kv
    by_cases h2 : k' = k
    · subst h2
      simp only [tget, if_pos rfl] at h
      cases h
      simp [tinsert]
    · simp only [tget, if_neg h2] at h
      simp [tinsert, h2, ih h]

theorem tinsert_tinsert (t : Table) (k : String) (v w : TomlVal) :
    tinsert (tinsert t k v) k w = tinsert t k w := by
  induction t with
  | nil => simp [tinsert]
  | cons kv rest ih =>
    obtain ⟨k', u⟩ := kv
    by_cases h : k' = k <;> simp [tinsert, h, ih]

/-- Inserts at distinct keys commute when the first key is already present
(an absent key is appended at the end, so inserting two absent keys in
different orders gives different tail orders). -/
theorem tinsert_comm_left (t : Table) (k k' : String) (v w : TomlVal) (h : k ≠ k')
    (hk : (tget t k).isSome = true) :
    tinsert (tinsert t k v) k' w = tinsert (tinsert t k' w) k v := by
  induction t with
  | nil => simp [tget] at hk
  | cons kv rest ih =>
    obtain ⟨k'', u⟩ := kv
    by_cases h2 : k'' = k
    · subst h2
      simp [tinsert, h, Ne.symm h]
    · by_cases h3 : k'' = k'
      · subst h3
        simp [tinsert, h2, Ne.symm h, h]
      · have hk' : (tget rest k).isSome = true := by
          simpa [tget, h2] using hk
        simp [tinsert, h2, h3, ih hk']

theorem tremove_absent (t : Table) (k : String) (h : tget t k = none) :
    tremove t k = t := by
  induction t with
  | nil => rfl
  | cons kv rest ih =>
    obtain ⟨k', w⟩ := kv
    by_cases h2 : k' = k
    · subst h2
      simp [tget] at h
    · simp only [tget, if_neg h2] at h
      simp [tremove, h2, ih h]

theorem tget_eq_none_of_not_tcontains {t : Table} {k : String}
    (h : tcontains t k = false) : tget t k = none := by
  unfold tcontains at h
  cases hg : tget t k
  · rfl
  · rw [hg] at h
    simp at h

/-- `tget` through the source's insert-if-absent idiom, at a different key. -/
theorem tget_ite_insert_ne {p : Table} (k0 : String) (d : TomlVal) {k : String}
    (h : k0 ≠ k) :
    tget (if ¬ tcontains p k0 then tinsert p k0 d else p) k = tget p k := by
  split
  · exact tget_tinsert_ne p k0 k d h
  · rfl

/-- `tget` through the insert-if-absent idiom: present values are preserved. -/
theorem tget_ite_insert_pres {p : Table} (k0 : String) (d : TomlVal) {k : String}
    {v : TomlVal} (h : tget p k = some v) :
    tget (if ¬ tcontains p k0 then tinsert p k0 d else p) k = some v := by
  by_cases hk : k0 = k
  · subst hk
    have : tcontains p k0 = true := by simp [tcontains, h]
    simp [this, h]
  · rw [tget_ite_insert_ne k0 d hk]
    exact h

/-- `tget` through the insert-if-absent idiom: the default fills an absent
key. -/
theorem tget_ite_insert_default {p : Table} (k0 : String) (d : TomlVal)
    (h : tget p k0 = none) :
    tget (if ¬ tcontains p k0 then tinsert p k0 d else p) k0 = some d := by
  have hc : tcontains p k0 = false := by simp [tcontains, h]
  simp only [hc, Bool.false_eq_true, not_false_eq_true, if_pos]
  exact tget_tinsert_same p k0 d

/-! ## C7: package defaults only-if-absent, target paths unconditionally -/

/-- The original package sub-table of a root table (empty when absent). -/
def packageOf (root : Table) : Table :=
  match tget root "package" with
  | some (.table p) => p
  | _ => []

/-- C7: `ensure_valid_package` fills name, version and edition only when
absent — every present field of the original package table keeps its value —
and `patch_target` sets the target's `path` field to the script's resolved
path unconditionally while setting `name` from the identity name only when
absent. -/
theorem c7_defaults_and_patching :
    (∀ (root : Table) (name : String) (root' : Table),
      ensure_valid_package root name = .ok root' →
      ∃ pkg', tget root' "package" = some (.table pkg')
        ∧ (∀ k v, tget (packageOf root) k = some v → tget pkg' k = some v)
        ∧ (tget (packageOf root) "name" = none → tget pkg' "name" = some (.str name))
        ∧ (tget (packageOf root) "version" = none →
            tget pkg' "version" = some (.str "0.1.0"))
        ∧ (tget (packageOf root) "edition" = none →
            tget pkg' "edition" = some (.str "2018")))
    ∧ (∀ (target : TomlVal) (R name : String) (out : TomlVal),
        patch_target target R name = .ok out →
        ∃ bin bin', target = .table bin ∧ out = .table bin'
          ∧ tget bin' "path" = some (.str R)
          ∧ (∀ v, tget bin "name" = some v → tget bin' "name" = some v)
          ∧ (tget bin "name" = none → tget bin' "name" = some (.str name))) := by
  constructor
  · intro root name root' h
    unfold ensure_valid_package at h
    simp only [] at h
    rcases hkey : tget (if ¬ tcontains root "package" then
        tinsert root "package" (.table []) else root) "package"
      with _ | (s | i | b | items | p) <;> rw [hkey] at h
    · exact absurd h (by simp)
    · exact absurd h (by simp)
    · exact absurd h (by simp)
    · exact absurd h (by simp)
    · exact absurd h (by simp)
    simp only [] at h
    injection h with h
    subst h
    have hpo : packageOf root = p := by
      by_cases hc : tcontains root "package" = true
      · rw [if_neg (by simp [hc])] at hkey
        unfold packageOf
        rw [hkey]
      · have hf : tcontains root "package" = false := by simpa using hc
        have hn := tget_eq_none_of_not_tcontains hf
        rw [if_pos (by simp [hf])] at hkey
        have hp : TomlVal.table [] = TomlVal.table p :=
          Option.some_inj.mp ((tget_tinsert_same root "package" (.table [])).symm.trans hkey)
        cases hp
        unfold packageOf
        rw [hn]
    refine ⟨_, tget_tinsert_same _ _ _, ?_, ?_, ?_, ?_⟩
    · intro k v hkv
      rw [hpo] at hkv
      exact tget_ite_insert_pres "edition" _
        (tget_ite_insert_pres "version" _ (tget_ite_insert_pres "name" _ hkv))
    · intro hn
      rw [hpo] at hn
      exact tget_ite_insert_pres "edition" _
        (tget_ite_insert_pres "version" _ (tget_ite_insert_default "name" _ hn))
    · intro hv
      rw [hpo] at hv
      have h1 : tget (if ¬ tcontains p "name" then
          tinsert p "name" (.str name) else p) "version" = none := by
        rw [tget_ite_insert_ne "name" _ (by decide)]
        exact hv
      exact tget_ite_insert_pres "edition" _ (tget_ite_insert_default "version" _ h1)
    · intro he
      rw [hpo] at he
      have h1 : tget (if ¬ tcontains p "name" then
          tinsert p "name" (.str name) else p) "edition" = none := by
        rw [tget_ite_insert_ne "name" _ (by decide)]
        exact he
      have h2 : tget (if ¬ tcontains (if ¬ tcontains p "name" then
          tinsert p "name" (.str name) else p) "version" then
          tinsert (if ¬ tcontains p "name" then tinsert p "name" (.str name) else p)
            "version" (.str "0.1.0")
          else (if ¬ tcontains p "name" then tinsert p "name" (.str name) else p))
          "edition" = none := by
        rw [tget_ite_insert_ne "version" _ (by decide)]
        exact h1
      exact tget_ite_insert_default "edition" _ h2
  · intro target R name out h
    unfold patch_target at h
    rcases target with s | i | b | items | bin
    · exact absurd h (by simp)
    · exact absurd h (by simp)
    · exact absurd h (by simp)
    · exact absurd h (by simp)
    simp only [] at h
    injection h with h
    subst h
    refine ⟨bin, _, rfl, rfl, ?_, ?_, ?_⟩
    · rw [tget_ite_insert_ne "name" _ (by decide)]
      exact tget_tinsert_same bin "path" (.str R)
    · intro v hv
      exact tget_ite_insert_pres "name" _
        (by rw [tget_tinsert_ne _ _ _ _ (by decide)]; exact hv)
    · intro hn
      refine tget_ite_insert_default "name" _ ?_
      rw [tget_tinsert_ne _ _ _ _ (by decide)]
      exact hn

/-- Witness for C7 at concrete inputs: an explicit `name = "custom"` is kept
while `version` is defaulted, and patching an empty target map sets both
`path` and `name`. -/
theorem c7_witness :
    (∃ pkg', tget [("package", TomlVal.table [("name", TomlVal.str "custom"),
        ("version", TomlVal.str "0.1.0"), ("edition", TomlVal.str "2018")])] "package"
        = some (.table pkg')
      ∧ tget pkg' "name" = some (.str "custom")
      ∧ tget pkg' "version" = some (.str "0.1.0"))
    ∧ (∃ bin bin', TomlVal.table [] = TomlVal.table bin
        ∧ TomlVal.table [("path", TomlVal.str "/s/x.rs"), ("name", TomlVal.str "x")] =
            TomlVal.table bin'
        ∧ tget bin' "path" = some (.str "/s/x.rs")
        ∧ tget bin' "name" = some (.str "x")) := by
  constructor
  · obtain ⟨pkg', hg, hpres, _, hver, _⟩ :=
      c7_defaults_and_patching.1 [("package", .table [("name", .str "custom")])] "stem" _ rfl
    exact ⟨pkg', hg, hpres "name" _ rfl, hver rfl⟩
  · obtain ⟨bin, bin', hb, hout, hpath, _, hname⟩ :=
      c7_defaults_and_patching.2 (.table []) "/s/x.rs" "x" _ rfl
    injection hb with hb'
    subst hb'
    exact ⟨[], bin', rfl, hout, hpath, hname rfl⟩

/-! ## C8 infrastructure: idempotence of the traversal pieces -/

theorem mapME_idem {α : Type} {f : α → Except String α}
    (hf : ∀ a b, f a = .ok b → f b = .ok b) :
    ∀ l l', mapME f l = .ok l' → mapME f l' = .ok l' := by
  intro l
  induction l with
  | nil =>
    intro l' h
    simp only [mapME] at h
    injection h with h
    subst h
    rfl
  | cons a rest ih =>
    intro l' h
    simp only [mapME] at h
    rcases hfa : f a with e | b <;> simp only [hfa] at h
    · exact absurd h (by simp)
    · rcases hrest : mapME f rest with e | bs <;> simp only [hrest] at h
      · exact absurd h (by simp)
      · injection h with h
        subst h
        simp only [mapME, hf a b hfa, ih bs hrest]

theorem mapME_ok_length {α β : Type} {f : α → Except String β} :
    ∀ l l', mapME f l = .ok l' → l'.length = l.length := by
  intro l
  induction l with
  | nil =>
    intro l' h
    simp only [mapME] at h
    injection h with h
    subst h
    rfl
  | cons a rest ih =>
    intro l' h
    simp only [mapME] at h
    rcases hfa : f a with e | b <;> simp only [hfa] at h
    · exact absurd h (by simp)
    · rcases hrest : mapME f rest with e | bs <;> simp only [hrest] at h
      · exact absurd h (by simp)
      · injection h with h
        subst h
        simp [ih bs hrest]

theorem mapME_cycle {α : Type} {f g : α → Except String α}
    (hfg : ∀ a b c, f a = .ok b → g b = .ok c → ∃ d, f c = .ok d ∧ g d = .ok c) :
    ∀ l l1 l2, mapME f l = .ok l1 → mapME g l1 = .ok l2 →
      ∃ l3, mapME f l2 = .ok l3 ∧ mapME g l3 = .ok l2 := by
  intro l
  induction l with
  | nil =>
    intro l1 l2 h1 h2
    simp only [mapME] at h1
    injection h1 with h1
    subst h1
    simp only [mapME] at h2
    injection h2 with h2
    subst h2
    exact ⟨[], rfl, rfl⟩
  | cons a rest ih =>
    intro l1 l2 h1 h2
    simp only [mapME] at h1
    rcases hfa : f a with e | b <;> simp only [hfa] at h1
    · exact absurd h1 (by simp)
    · rcases hrest : mapME f rest with e | bs <;> simp only [hrest] at h1
      · exact absurd h1 (by simp)
      · injection h1 with h1
        subst h1
        simp only [mapME] at h2
        rcases hgb : g b with e | c <;> simp only [hgb] at h2
        · exact absurd h2 (by simp)
        · rcases hbs : mapME g bs with e | cs <;> simp only [hbs] at h2
          · exact absurd h2 (by simp)
          · injection h2 with h2
            subst h2
            obtain ⟨d, hfd, hgd⟩ := hfg a b c hfa hgb
            obtain ⟨l3, hf3, hg3⟩ := ih bs cs hrest hbs
            exact ⟨d :: l3, by simp only [mapME, hfd, hf3],
              by simp only [mapME, hgd, hg3]⟩

theorem mapMEntries_idem {f : TomlVal → Except String TomlVal}
    (hf : ∀ a b, f a = .ok b → f b = .ok b) :
    ∀ t t', mapMEntries f t = .ok t' → mapMEntries f t' = .ok t' := by
  intro t
  induction t with
  | nil =>
    intro t' h
    simp only [mapMEntries] at h
    injection h with h
    subst h
    rfl
  | cons kv rest ih =>
    obtain ⟨k, v⟩ := kv
    intro t' h
    simp only [mapMEntries] at h
    rcases hfv : f v with e | v' <;> simp only [hfv] at h
    · exact absurd h (by simp)
    · rcases hrest : mapMEntries f rest with e | rest' <;> simp only [hrest] at h
      · exact absurd h (by simp)
      · injection h with h
        subst h
        simp only [mapMEntries, hf v v' hfv, ih rest' hrest]

theorem normTableItem_ne {J : String → String} {t : Table} {key : String} {t' : Table}
    (h : normTableItem J t key = .ok t') :
    ∀ k, k ≠ key → tget t' k = tget t k := by
  intro k hk
  unfold normTableItem at h
  rcases hg : tget t key with _ | v <;> rw [hg] at h
  · injection h with h
    subst h
    rfl
  · rcases v with s | _ | _ | _ | _ <;> simp only [] at h
    · injection h with h
      subst h
      exact tget_tinsert_ne t key k _ (fun hc => hk hc.symm)
    · exact absurd h (by simp)
    · exact absurd h (by simp)
    · exact absurd h (by simp)
    · exact absurd h (by simp)

theorem normTableItem_idem {J : String → String} (hJ : ∀ s, J (J s) = J s) :
    ∀ (t : Table) (key : String) (t' : Table),
      normTableItem J t key = .ok t' → normTableItem J t' key = .ok t' := by
  intro t key t' h
  unfold normTableItem at h ⊢
  rcases hg : tget t key with _ | v <;> rw [hg] at h
  · injection h with h
    subst h
    rw [hg]
  · rcases v with s | _ | _ | _ | _ <;> simp only [] at h
    · injection h with h
      subst h
      simp only [tget_tinsert_same, hJ, tinsert_tinsert]
    · exact absurd h (by simp)
    · exact absurd h (by simp)
    · exact absurd h (by simp)
    · exact absurd h (by simp)

/-- Unfolding lemma: the empty remaining key-path. -/
theorem normPathsGo_nil (J : String → String) (c : TomlVal) :
    normPathsGo J c [] = .ok c := by
  rw [normPathsGo.eq_def]

/-- Unfolding lemma: the leaf case (`depth + 1 == path.len()`). -/
theorem normPathsGo_leaf (J : String → String) (c : TomlVal) (key : String) :
    normPathsGo J c [key] =
      (match c with
       | .table t =>
         (match normTableItem J t key with
          | .ok t' => .ok (.table t')
          | .error e => .error e)
       | _ => .ok c) := by
  rw [normPathsGo.eq_def]
  rcases c <;> rfl

/-- Unfolding lemma: the interior case (two or more remaining segments). -/
theorem normPathsGo_interior (J : String → String) (c : TomlVal) (key s : String)
    (rest : List String) :
    normPathsGo J c (key :: s :: rest) =
      (match c with
       | .arr items =>
         if key = "" then
           (match mapME (fun item => normPathsGo J item (s :: rest)) items with
            | .ok items' => .ok (.arr items')
            | .error e => .error e)
         else .error "Unexpected array in path"
       | .table t =>
         if key = "" then
           (match mapMEntries (fun v => normPathsGo J v (s :: rest)) t with
            | .ok t' => .ok (.table t')
            | .error e => .error e)
         else
           (match tget t key with
            | some child =>
              (match normPathsGo J child (s :: rest) with
               | .ok child' => .ok (.table (tinsert t key child'))
               | .error e => .error e)
            | none => .ok (.table t))
       | _ => .error "Invalid value type") := by
  rw [normPathsGo.eq_def]
  rcases c <;> rfl

theorem normPathsGo_idem {J : String → String} (hJ : ∀ s, J (J s) = J s) :
    ∀ (path : List String) (c c' : TomlVal),
      normPathsGo J c path = .ok c' → normPathsGo J c' path = .ok c' := by
  intro path
  induction path with
  | nil =>
    intro c c' h
    rw [normPathsGo_nil] at h
    injection h with h
    subst h
    exact normPathsGo_nil J c
  | cons key rest ih =>
    intro c c' h
    rcases rest with _ | ⟨s, rest'⟩
    · -- leaf case
      rw [normPathsGo_leaf] at h
      rcases c with cs | ci | cb | items | t
      case table =>
        simp only [] at h
        rcases hni : normTableItem J t key with e | t' <;> simp only [hni] at h
        · exact absurd h (by simp)
        · injection h with h
          subst h
          rw [normPathsGo_leaf]
          simp only [normTableItem_idem hJ t key t' hni]
      all_goals
        (simp only [] at h
         injection h with h
         subst h
         rw [normPathsGo_leaf])
    · -- interior case
      rw [normPathsGo_interior] at h
      rcases c with cs | ci | cb | items | t
      case arr =>
        simp only [] at h
        by_cases hk : key = ""
        · subst hk
          rw [if_pos rfl] at h
          rcases hm : mapME (fun item => normPathsGo J item (s :: rest')) items
            with e | items' <;> simp only [hm] at h
          · exact absurd h (by simp)
          · injection h with h
            subst h
            rw [normPathsGo_interior]
            simp [mapME_idem (fun a b hab => ih a b hab) items items' hm]
        · rw [if_neg hk] at h
          exact absurd h (by simp)
      case table =>
        simp only [] at h
        by_cases hk : key = ""
        · subst hk
          rw [if_pos rfl] at h
          rcases hm : mapMEntries (fun v => normPathsGo J v (s :: rest')) t
            with e | t' <;> simp only [hm] at h
          · exact absurd h (by simp)
          · injection h with h
            subst h
            rw [normPathsGo_interior]
            simp [mapMEntries_idem (fun a b hab => ih a b hab) t t' hm]
        · rw [if_neg hk] at h
          rcases hg : tget t key with _ | child <;> rw [hg] at h
          · injection h with h
            subst h
            rw [normPathsGo_interior]
            simp only [if_neg hk, hg]
          · rcases hnc : normPathsGo J child (s :: rest') with e | child' <;>
              simp only [hnc] at h
            · exact absurd h (by simp)
            · injection h with h
              subst h
              rw [normPathsGo_interior]
              simp only [if_neg hk, tget_tinsert_same, ih child child' hnc,
                tinsert_tinsert]
      all_goals exact absurd h (by simp)

theorem tget_ite_insert_self_isSome (p : Table) (k0 : String) (d : TomlVal) :
    (tget (if ¬ tcontains p k0 then tinsert p k0 d else p) k0).isSome = true := by
  by_cases hc : tcontains p k0 = true
  · rw [if_neg (by simp [hc])]
    unfold tcontains at hc
    exact hc
  · have hf : tcontains p k0 = false := by simpa using hc
    rw [if_pos (by simp [hf]), tget_tinsert_same]
    rfl

/-- The patch-then-rewrite cycle on one target value: patching an
already-patched-and-rewritten target and rewriting again restores the same
value. -/
theorem patch_norm_cycle {J : String → String} {R name : String} {v v1 v2 : TomlVal}
    (h1 : patch_target v R name = .ok v1)
    (h2 : normPathsGo J v1 ["path"] = .ok v2) :
    ∃ v3, patch_target v2 R name = .ok v3 ∧ normPathsGo J v3 ["path"] = .ok v2 := by
  unfold patch_target at h1
  rcases v with s | i | b | items | bin
  · exact absurd h1 (by simp)
  · exact absurd h1 (by simp)
  · exact absurd h1 (by simp)
  · exact absurd h1 (by simp)
  simp only [] at h1
  injection h1 with h1
  subst h1
  rw [normPathsGo_leaf] at h2
  simp only [] at h2
  have hpath1 : tget (if ¬ tcontains (tinsert bin "path" (.str R)) "name" then
      tinsert (tinsert bin "path" (.str R)) "name" (.str name)
      else tinsert bin "path" (.str R)) "path" = some (.str R) :=
    tget_ite_insert_pres "name" _ (tget_tinsert_same bin "path" (.str R))
  have hname1 : (tget (if ¬ tcontains (tinsert bin "path" (.str R)) "name" then
      tinsert (tinsert bin "path" (.str R)) "name" (.str name)
      else tinsert bin "path" (.str R)) "name").isSome = true :=
    tget_ite_insert_self_isSome _ "name" _
  rw [normTableItem, hpath1] at h2
  simp only [] at h2
  injection h2 with h2
  subst h2
  set b1 := (if ¬ tcontains (tinsert bin "path" (.str R)) "name" then
      tinsert (tinsert bin "path" (.str R)) "name" (.str name)
      else tinsert bin "path" (.str R)) with hb1
  refine ⟨.table (tinsert (tinsert b1 "path" (.str (J R))) "path" (.str R)), ?_, ?_⟩
  · unfold patch_target
    simp only []
    rw [tinsert_tinsert]
    have hcn : tcontains (tinsert b1 "path" (.str R)) "name" = true := by
      unfold tcontains
      rw [tget_tinsert_ne _ _ _ _ (by decide)]
      exact hname1
    rw [if_neg (by simp [hcn])]
  · rw [normPathsGo_leaf]
    simp only []
    rw [normTableItem, tget_tinsert_same]
    simp only []
    rw [tinsert_tinsert, tinsert_tinsert]

theorem ensure_valid_package_facts {root : Table} {name : String} {root' : Table}
    (h : ensure_valid_package root name = .ok root') :
    (∀ k, k ≠ "package" → tget root' k = tget root k)
    ∧ ∃ p', tget root' "package" = some (.table p')
        ∧ (tget p' "name").isSome = true
        ∧ (tget p' "version").isSome = true
        ∧ (tget p' "edition").isSome = true := by
  unfold ensure_valid_package at h
  simp only [] at h
  rcases hkey : tget (if ¬ tcontains root "package" then
      tinsert root "package" (.table []) else root) "package"
    with _ | (s | i | b | items | p) <;> rw [hkey] at h
  · exact absurd h (by simp)
  · exact absurd h (by simp)
  · exact absurd h (by simp)
  · exact absurd h (by simp)
  · exact absurd h (by simp)
  simp only [] at h
  injection h with h
  subst h
  constructor
  · intro k hk
    rw [tget_tinsert_ne _ _ _ _ (fun hc => hk hc.symm)]
    exact tget_ite_insert_ne "package" _ (fun hc => hk hc.symm)
  · refine ⟨_, tget_tinsert_same _ _ _, ?_, ?_, ?_⟩
    · have h1 := tget_ite_insert_self_isSome p "name" (TomlVal.str name)
      rcases ho : tget (if ¬ tcontains p "name" then
          tinsert p "name" (.str name) else p) "name" with _ | v
      · rw [ho] at h1; exact absurd h1 (by simp)
      · rw [tget_ite_insert_pres "edition" _ (tget_ite_insert_pres "version" _ ho)]
        rfl
    · have h1 := tget_ite_insert_self_isSome
        (if ¬ tcontains p "name" then tinsert p "name" (.str name) else p)
        "version" (TomlVal.str "0.1.0")
      rcases ho : tget (if ¬ tcontains (if ¬ tcontains p "name" then
          tinsert p "name" (.str name) else p) "version" then
          tinsert (if ¬ tcontains p "name" then tinsert p "name" (.str name) else p)
            "version" (.str "0.1.0")
          else (if ¬ tcontains p "name" then tinsert p "name" (.str name) else p))
          "version" with _ | v
      · rw [ho] at h1; exact absurd h1 (by simp)
      · rw [tget_ite_insert_pres "edition" _ ho]
        rfl
    · exact tget_ite_insert_self_isSome _ "edition" _

theorem ensure_valid_package_stable {root : Table} {name : String} {p : Table}
    (hp : tget root "package" = some (.table p))
    (hn : (tget p "name").isSome = true) (hv : (tget p "version").isSome = true)
    (he : (tget p "edition").isSome = true) :
    ensure_valid_package root name = .ok root := by
  unfold ensure_valid_package
  simp only []
  have hc : tcontains root "package" = true := by simp [tcontains, hp]
  rw [if_neg (by simp [hc]), hp]
  simp only []
  have hcn : tcontains p "name" = true := hn
  have hcv : tcontains p "version" = true := hv
  have hce : tcontains p "edition" = true := he
  have e1 : (if ¬ tcontains p "name" then tinsert p "name" (TomlVal.str name) else p) = p := by
    rw [if_neg (by simp [hcn])]
  rw [e1]
  have e2 : (if ¬ tcontains p "version" then
      tinsert p "version" (TomlVal.str "0.1.0") else p) = p := by
    rw [if_neg (by simp [hcv])]
  rw [e2]
  have e3 : (if ¬ tcontains p "edition" then
      tinsert p "edition" (TomlVal.str "2018") else p) = p := by
    rw [if_neg (by simp [hce])]
  rw [e3]
  rw [tinsert_tget_same root _ _ hp]

/-- The target invariant established by `ensure_at_least_a_single_target` and
preserved by the rest of the pipeline: `bin`, when present, is an array, and
either `lib` is present or `bin` is a non-empty array. -/
def TargetGood (r : Table) : Prop :=
  (∀ v, tget r "bin" = some v → ∃ bins, v = .arr bins)
  ∧ ((tget r "lib").isSome = true
     ∨ ∃ bins, tget r "bin" = some (.arr bins) ∧ bins ≠ [])

theorem ensure_target_facts {root root' : Table}
    (h : ensure_at_least_a_single_target root = .ok root') :
    (∀ k, k ≠ "bin" → tget root' k = tget root k) ∧ TargetGood root' := by
  unfold ensure_at_least_a_single_target at h
  simp only [] at h
  by_cases hcb : tcontains root "bin" = true
  · rw [if_pos hcb] at h
    rcases hgb : tget root "bin" with _ | (s | i | b | bins | t) <;> rw [hgb] at h
    · exact absurd h (by simp)
    · exact absurd h (by simp)
    · exact absurd h (by simp)
    · exact absurd h (by simp)
    swap
    · exact absurd h (by simp)
    · simp only [] at h
      by_cases hdef : (tcontains root "lib" || !bins.isEmpty) = true
      · rw [if_pos hdef] at h
        injection h with h
        subst h
        refine ⟨fun k _ => rfl, ?_, ?_⟩
        · intro v hv
          rw [hgb] at hv
          injection hv with hv
          exact ⟨bins, hv.symm⟩
        · rcases Bool.or_eq_true_iff.mp hdef with hl | hb
          · exact Or.inl hl
          · refine Or.inr ⟨bins, hgb, ?_⟩
            simpa using hb
      · rw [if_neg hdef] at h
        rw [tget_tinsert_same] at h
        simp only [] at h
        injection h with h
        subst h
        rw [tinsert_tinsert]
        constructor
        · intro k hk
          exact tget_tinsert_ne _ _ _ _ (fun hc => hk hc.symm)
        · constructor
          · intro v hv
            rw [tget_tinsert_same] at hv
            injection hv with hv
            exact ⟨_, hv.symm⟩
          · refine Or.inr ⟨_, tget_tinsert_same _ _ _, by simp⟩
  · rw [if_neg hcb] at h
    simp only [] at h
    have hgb : tget root "bin" = none :=
      tget_eq_none_of_not_tcontains (by simpa using hcb)
    by_cases hdef : (tcontains root "lib" || false) = true
    · rw [if_pos hdef] at h
      injection h with h
      subst h
      refine ⟨fun k _ => rfl, ?_, Or.inl (by simpa using hdef)⟩
      intro v hv
      rw [hgb] at hv
      exact absurd hv (by simp)
    · rw [if_neg hdef] at h
      rw [tget_tinsert_same] at h
      simp only [] at h
      injection h with h
      subst h
      rw [tinsert_tinsert]
      constructor
      · intro k hk
        exact tget_tinsert_ne _ _ _ _ (fun hc => hk hc.symm)
      · constructor
        · intro v hv
          rw [tget_tinsert_same] at hv
          injection hv with hv
          exact ⟨_, hv.symm⟩
        · refine Or.inr ⟨_, tget_tinsert_same _ _ _, by simp⟩

theorem ensure_target_stable {root : Table} (hg : TargetGood root) :
    ensure_at_least_a_single_target root = .ok root := by
  obtain ⟨harr, hdef⟩ := hg
  unfold ensure_at_least_a_single_target
  simp only []
  by_cases hcb : tcontains root "bin" = true
  · rw [if_pos hcb]
    rcases hgb : tget root "bin" with _ | v
    · unfold tcontains at hcb
      rw [hgb] at hcb
      exact absurd hcb (by simp)
    · obtain ⟨bins, rfl⟩ := harr v hgb
      simp only []
      have : (tcontains root "lib" || !bins.isEmpty) = true := by
        rcases hdef with hl | ⟨bins', hb', hne⟩
        · simp [tcontains, hl]
        · rw [hgb] at hb'
          injection hb' with hb'
          injection hb' with hb'
          subst hb'
          simp [hne]
      rw [if_pos this]
  · rw [if_neg hcb]
    simp only []
    have hgb : tget root "bin" = none :=
      tget_eq_none_of_not_tcontains (by simpa using hcb)
    have hl : (tget root "lib").isSome = true := by
      rcases hdef with hl | ⟨bins', hb', _⟩
      · exact hl
      · rw [hgb] at hb'
        exact absurd hb' (by simp)
    rw [if_pos (by simp [tcontains, hl])]

theorem patch_all_facts {root : Table} {R name : String} {root' : Table}
    (h : patch_all_targets root R name = .ok root') :
    (∀ k, k ≠ "lib" → k ≠ "bin" → tget root' k = tget root k)
    ∧ (match tget root "lib" with
       | none => tget root' "lib" = none
       | some L => ∃ L', patch_target L R name = .ok L' ∧ tget root' "lib" = some L')
    ∧ (match tget root "bin" with
       | none => tget root' "bin" = none
       | some (.arr bs) => ∃ bs', mapME (fun b => patch_target b R name) bs = .ok bs'
           ∧ tget root' "bin" = some (.arr bs') ∧ bs'.length = bs.length
       | some _ => False) := by
  unfold patch_all_targets at h
  simp only [] at h
  rcases hl : tget root "lib" with _ | L <;> rw [hl] at h
  · simp only [] at h
    simp only [hl]
    rcases hb : tget root "bin" with _ | (s | i | bb | bs | t) <;> rw [hb] at h <;>
      simp only [hb]
    · injection h with h
      subst h
      exact ⟨fun k _ _ => rfl, hl, hb⟩
    · exact absurd h (by simp)
    · exact absurd h (by simp)
    · exact absurd h (by simp)
    swap
    · exact absurd h (by simp)
    · rcases hm : mapME (fun b => patch_target b R name) bs with e | bs' <;>
        simp only [hm] at h
      · exact absurd h (by simp)
      · injection h with h
        subst h
        refine ⟨?_, ?_, ?_⟩
        · intro k _ hk2
          exact tget_tinsert_ne _ _ _ _ (fun hc => hk2 hc.symm)
        · rw [tget_tinsert_ne _ _ _ _ (by decide)]
          exact hl
        · exact ⟨bs', rfl, tget_tinsert_same _ _ _, mapME_ok_length bs bs' hm⟩
  · rcases hp : patch_target L R name with e | L' <;> simp only [hp] at h
    · exact absurd h (by simp)
    · simp only [hl]
      have hbl : tget (tinsert root "lib" L') "bin" = tget root "bin" :=
        tget_tinsert_ne _ _ _ _ (by decide)
      rw [hbl] at h
      rcases hb : tget root "bin" with _ | (s | i | bb | bs | t) <;> rw [hb] at h <;>
        simp only [hb]
      · injection h with h
        subst h
        refine ⟨?_, ⟨L', hp, tget_tinsert_same _ _ _⟩, ?_⟩
        · intro k hk1 _
          exact tget_tinsert_ne _ _ _ _ (fun hc => hk1 hc.symm)
        · rw [hbl, hb]
      · exact absurd h (by simp)
      · exact absurd h (by simp)
      · exact absurd h (by simp)
      swap
      · exact absurd h (by simp)
      · rcases hm : mapME (fun b => patch_target b R name) bs with e | bs' <;>
          simp only [hm] at h
        · exact absurd h (by simp)
        · injection h with h
          subst h
          refine ⟨?_, ?_, ?_⟩
          · intro k hk1 hk2
            rw [tget_tinsert_ne _ _ _ _ (fun hc => hk2 hc.symm)]
            exact tget_tinsert_ne _ _ _ _ (fun hc => hk1 hc.symm)
          · refine ⟨L', hp, ?_⟩
            rw [tget_tinsert_ne _ _ _ _ (by decide)]
            exact tget_tinsert_same _ _ _
          · exact ⟨bs', rfl, tget_tinsert_same _ _ _, mapME_ok_length bs bs' hm⟩

theorem normalizePathsStep_preserve {J : String → String} {r : Table}
    {p : List String} {r' : Table} (h : normalizePathsStep J r p = .ok r') :
    ∀ k, p.head? ≠ some k → tget r' k = tget r k := by
  intro k hk
  unfold normalizePathsStep at h
  rcases p with _ | ⟨key, rest⟩
  · simp only [] at h
    injection h with h
    subst h
    rfl
  · simp only [] at h
    simp only [List.head?_cons, ne_eq, Option.some_inj] at hk
    rcases hg : tget r key with _ | child <;> rw [hg] at h
    · injection h with h
      subst h
      rfl
    · rcases hn : normPathsGo J child rest with e | child' <;> simp only [hn] at h
      · exact absurd h (by simp)
      · injection h with h
        subst h
        exact tget_tinsert_ne _ _ _ _ hk

theorem foldSteps_preserve {J : String → String} :
    ∀ (ps : List (List String)) (r r' : Table), foldSteps J ps r = .ok r' →
      ∀ k, (∀ p ∈ ps, p.head? ≠ some k) → tget r' k = tget r k := by
  intro ps
  induction ps with
  | nil =>
    intro r r' h k _
    simp only [foldSteps] at h
    injection h with h
    subst h
    rfl
  | cons p ps ih =>
    intro r r' h k hk
    simp only [foldSteps] at h
    rcases hs : normalizePathsStep J r p with e | r1 <;> simp only [hs] at h
    · exact absurd h (by simp)
    · rw [ih r1 r' h k (fun q hq => hk q (List.mem_cons_of_mem p hq))]
      exact normalizePathsStep_preserve hs k (hk p (List.mem_cons_self p ps))

theorem foldSteps_key {J : String → String} :
    ∀ (pre : List (List String)) (k : String) (rest : List String)
      (post : List (List String)) (r r' : Table),
      foldSteps J (pre ++ (k :: rest) :: post) r = .ok r' →
      (∀ p ∈ pre, p.head? ≠ some k) → (∀ p ∈ post, p.head? ≠ some k) →
      (tget r k = none → tget r' k = none)
      ∧ (∀ c, tget r k = some c → ∃ c', normPathsGo J c rest = .ok c'
          ∧ tget r' k = some c') := by
  intro pre
  induction pre with
  | nil =>
    intro k rest post r r' h _ hpost
    simp only [List.nil_append, foldSteps] at h
    rcases hs : normalizePathsStep J r (k :: rest) with e | r1 <;> simp only [hs] at h
    · exact absurd h (by simp)
    · unfold normalizePathsStep at hs
      simp only [] at hs
      rcases hg : tget r k with _ | c <;> rw [hg] at hs
      · injection hs with hs
        subst hs
        refine ⟨fun _ => ?_, fun c hc => absurd hc (by simp)⟩
        rw [foldSteps_preserve post _ r' h k hpost]
        exact hg
      · rcases hn : normPathsGo J c rest with e | c' <;> simp only [hn] at hs
        · exact absurd hs (by simp)
        · injection hs with hs
          subst hs
          refine ⟨fun hc => absurd hc (by simp), fun c0 hc0 => ?_⟩
          injection hc0 with hc0
          subst hc0
          refine ⟨c', hn, ?_⟩
          rw [foldSteps_preserve post _ r' h k hpost]
          exact tget_tinsert_same _ _ _
  | cons p pre ih =>
    intro k rest post r r' h hpre hpost
    simp only [List.cons_append, foldSteps] at h
    rcases hs : normalizePathsStep J r p with e | r1 <;> simp only [hs] at h
    · exact absurd h (by simp)
    · have hr1 : tget r1 k = tget r k :=
        normalizePathsStep_preserve hs k (hpre p (List.mem_cons_self p pre))
      have := ih k rest post r1 r' h (fun q hq => hpre q (List.mem_cons_of_mem p hq)) hpost
      rw [hr1] at this
      exact this

theorem normalizePathsStep_stable {J : String → String} {r : Table} {k : String}
    {rest : List String}
    (h : tget r k = none ∨ ∃ c, tget r k = some c ∧ normPathsGo J c rest = .ok c) :
    normalizePathsStep J r (k :: rest) = .ok r := by
  unfold normalizePathsStep
  simp only []
  rcases h with hn | ⟨c, hc, hcn⟩
  · rw [hn]
  · rw [hc]
    simp only [hcn]
    rw [tinsert_tget_same r k c hc]

theorem foldSteps_stable {J : String → String} :
    ∀ (ps : List (List String)) (r : Table),
      (∀ p ∈ ps, ∃ k rest, p = k :: rest ∧
        (tget r k = none ∨ ∃ c, tget r k = some c ∧ normPathsGo J c rest = .ok c)) →
      foldSteps J ps r = .ok r := by
  intro ps
  induction ps with
  | nil => intro r _; rfl
  | cons p ps ih =>
    intro r hp
    obtain ⟨k, rest, rfl, hfact⟩ := hp p (List.mem_cons_self p ps)
    simp only [foldSteps, normalizePathsStep_stable hfact]
    exact ih r (fun q hq => hp q (List.mem_cons_of_mem _ hq))

/-- Decompose a successful leaf traversal of a table value. -/
theorem normPathsGo_leaf_table_facts {J : String → String} {t : Table} {key : String}
    {out : TomlVal} (h : normPathsGo J (.table t) [key] = .ok out) :
    ∃ t', out = .table t' ∧ normTableItem J t key = .ok t' := by
  rw [normPathsGo_leaf] at h
  simp only [] at h
  rcases hni : normTableItem J t key with e | t' <;> simp only [hni] at h
  · exact absurd h (by simp)
  · injection h with h
    subst h
    exact ⟨t', rfl, rfl⟩

/-- Decompose a successful wildcard traversal of an array value. -/
theorem normPathsGo_arr_facts {J : String → String} {items : List TomlVal}
    {s : String} {rest : List String} {out : TomlVal}
    (h : normPathsGo J (.arr items) ("" :: s :: rest) = .ok out) :
    ∃ items', mapME (fun item => normPathsGo J item (s :: rest)) items = .ok items'
      ∧ out = .arr items' ∧ items'.length = items.length := by
  rw [normPathsGo_interior] at h
  simp only [if_pos rfl] at h
  rcases hm : mapME (fun item => normPathsGo J item (s :: rest)) items
    with e | items' <;> simp only [hm] at h
  · exact absurd h (by simp)
  · injection h with h
    subst h
    exact ⟨items', rfl, rfl, mapME_ok_length items items' hm⟩

/-! ## C8: normalization is idempotent -/

/-- C8: normalization is idempotent.  For every document (already free of the
tool-private `cargo-wop` section) and fixed script path — entering as the
resolved script path `R`, the file stem `stem`, and the leaf path resolver
`J`, which is stable on re-resolved paths (`J (J s) = J s`, the
"re-resolved path fields remain stable" condition) — normalizing the result
of a successful normalization yields it back unchanged. -/
theorem c8_normalize_manifest_idempotent (J : String → String) (R stem : String)
    (root0 : Table) (out : TomlVal) (hJ : ∀ s, J (J s) = J s)
    (hstrip : tget root0 "cargo-wop" = none)
    (h : normalize_manifest J R stem (.table root0) = .ok out) :
    normalize_manifest J R stem out = .ok out := by
  -- first-run decomposition into the pipeline stages
  unfold normalize_manifest at h
  simp only [] at h
  have h1 : strip_custom_section root0 = root0 := tremove_absent root0 _ hstrip
  rw [h1] at h
  rcases hE : ensure_valid_package root0 stem with e | root2 <;> rw [hE] at h
  · exact absurd h (by simp)
  simp only [] at h
  rcases hT : ensure_at_least_a_single_target root2 with e | root3 <;> rw [hT] at h
  · exact absurd h (by simp)
  simp only [] at h
  rcases hP : patch_all_targets root3 R stem with e | root4 <;> rw [hP] at h
  · exact absurd h (by simp)
  simp only [] at h
  rcases hN : normalize_paths J root4 with e | root5 <;> rw [hN] at h
  · exact absurd h (by simp)
  simp only [] at h
  injection h with h
  subst h
  unfold normalize_paths at hN
  obtain ⟨hEpres, p2, hp2, hp2n, hp2v, hp2e⟩ := ensure_valid_package_facts hE
  obtain ⟨hTpres, hTarr, hTdef⟩ := ensure_target_facts hT
  obtain ⟨hPpres, hPlib, hPbin⟩ := patch_all_facts hP
  -- the cargo-wop key stays absent through the pipeline
  have hcw2 : tget root2 "cargo-wop" = none := by
    rw [hEpres _ (by decide)]; exact hstrip
  have hcw3 : tget root3 "cargo-wop" = none := by
    rw [hTpres _ (by decide)]; exact hcw2
  have hcw4 : tget root4 "cargo-wop" = none := by
    rw [hPpres _ (by decide) (by decide)]; exact hcw3
  have hcw5 : tget root5 "cargo-wop" = none := by
    rw [foldSteps_preserve _ _ _ hN _ (by decide)]; exact hcw4
  -- the package table keeps name/version/edition through the pipeline
  have hp3 : tget root3 "package" = some (.table p2) := by
    rw [hTpres _ (by decide)]; exact hp2
  have hp4 : tget root4 "package" = some (.table p2) := by
    rw [hPpres _ (by decide) (by decide)]; exact hp3
  have hkey_pkg := foldSteps_key (PATH_NORMALIZATION.take 5) "package" ["build"]
    (PATH_NORMALIZATION.drop 6) root4 root5 (by exact hN) (by decide) (by decide)
  obtain ⟨c5, hc5norm, hc5get⟩ := hkey_pkg.2 (.table p2) hp4
  obtain ⟨p5, rfl, hni5⟩ := normPathsGo_leaf_table_facts hc5norm
  have hp5n : (tget p5 "name").isSome = true := by
    rw [normTableItem_ne hni5 _ (by decide)]; exact hp2n
  have hp5v : (tget p5 "version").isSome = true := by
    rw [normTableItem_ne hni5 _ (by decide)]; exact hp2v
  have hp5e : (tget p5 "edition").isSome = true := by
    rw [normTableItem_ne hni5 _ (by decide)]; exact hp2e
  -- lib and bin through the last two stages
  have hkey_lib := foldSteps_key [] "lib" ["path"]
    (PATH_NORMALIZATION.drop 1) root4 root5 (by exact hN) (by simp) (by decide)
  have hkey_bin := foldSteps_key (PATH_NORMALIZATION.take 1) "bin" ["", "path"]
    (PATH_NORMALIZATION.drop 2) root4 root5 (by exact hN) (by decide) (by decide)
  have hlib5 : (tget root3 "lib" = none ∧ tget root5 "lib" = none) ∨
      (∃ L3 L4 L5, tget root3 "lib" = some L3 ∧ patch_target L3 R stem = .ok L4 ∧
        normPathsGo J L4 ["path"] = .ok L5 ∧ tget root5 "lib" = some L5) := by
    rcases hgl3 : tget root3 "lib" with _ | L3
    · left
      refine ⟨rfl, ?_⟩
      have h4 : tget root4 "lib" = none := by simpa [hgl3] using hPlib
      exact hkey_lib.1 h4
    · right
      have hb := hPlib
      rw [hgl3] at hb
      simp only [] at hb
      obtain ⟨L4, hp4', hg4⟩ := hb
      obtain ⟨L5, hn5, hg5⟩ := hkey_lib.2 L4 hg4
      exact ⟨L3, L4, L5, rfl, hp4', hn5, hg5⟩
  have hbin5 : (tget root3 "bin" = none ∧ tget root5 "bin" = none) ∨
      (∃ bs3 bs4 bs5, tget root3 "bin" = some (.arr bs3)
        ∧ mapME (fun b => patch_target b R stem) bs3 = .ok bs4
        ∧ mapME (fun v => normPathsGo J v ["path"]) bs4 = .ok bs5
        ∧ tget root5 "bin" = some (.arr bs5)
        ∧ bs5.length = bs3.length) := by
    rcases hgb3 : tget root3 "bin" with _ | v
    · left
      refine ⟨rfl, ?_⟩
      have h4 : tget root4 "bin" = none := by simpa [hgb3] using hPbin
      exact hkey_bin.1 h4
    · have hb := hPbin
      rw [hgb3] at hb
      rcases v with s | i | bb | bs3 | t <;> simp only [] at hb
      right
      obtain ⟨bs4, hmap, hg4, hlen43⟩ := hb
      obtain ⟨cb5, hnorm, hg5⟩ := hkey_bin.2 (.arr bs4) hg4
      obtain ⟨bs5, hmapn, rfl, hlen54⟩ := normPathsGo_arr_facts hnorm
      exact ⟨bs3, bs4, bs5, rfl, hmap, hmapn, hg5, by rw [hlen54, hlen43]⟩
  -- the target invariant at the output
  have harr5 : ∀ v, tget root5 "bin" = some v → ∃ bins, v = .arr bins := by
    intro v hv
    rcases hbin5 with ⟨_, hnone⟩ | ⟨bs3, bs4, bs5, _, _, _, hg5, _⟩
    · rw [hnone] at hv
      exact absurd hv (by simp)
    · rw [hg5] at hv
      injection hv with hv
      exact ⟨bs5, hv.symm⟩
  have hdef5 : (tget root5 "lib").isSome = true
      ∨ ∃ bins, tget root5 "bin" = some (.arr bins) ∧ bins ≠ [] := by
    rcases hTdef with hl3 | ⟨bins3, hb3, hne3⟩
    · rcases hlib5 with ⟨hn3, _⟩ | ⟨L3, L4, L5, _, _, _, hg5⟩
      · rw [hn3] at hl3
        exact absurd hl3 (by simp)
      · left
        rw [hg5]
        rfl
    · rcases hbin5 with ⟨hn3, _⟩ | ⟨bs3, bs4, bs5, hg3, _, _, hg5, hlen⟩
      · rw [hn3] at hb3
        exact absurd hb3 (by simp)
      · right
        refine ⟨bs5, hg5, ?_⟩
        rw [hg3] at hb3
        injection hb3 with hb3
        injection hb3 with hb3
        subst hb3
        intro hc
        apply hne3
        have : bs3.length = 0 := by rw [← hlen, hc]; rfl
        exact List.length_eq_zero.mp this
  -- stability of the nine remaining key-paths at the output
  have key_stable : ∀ (pre : List (List String)) (k : String) (rest : List String)
      (post : List (List String)), pre ++ (k :: rest) :: post = PATH_NORMALIZATION →
      (∀ p ∈ pre, p.head? ≠ some k) → (∀ p ∈ post, p.head? ≠ some k) →
      tget root5 k = none
        ∨ ∃ c, tget root5 k = some c ∧ normPathsGo J c rest = .ok c := by
    intro pre k rest post he hpre hpost
    obtain ⟨hkn, hks⟩ := foldSteps_key pre k rest post root4 root5
      (by rw [he]; exact hN) hpre hpost
    rcases hg4 : tget root4 k with _ | c4
    · exact Or.inl (hkn hg4)
    · obtain ⟨c5h, hcn, hcg⟩ := hks c4 hg4
      exact Or.inr ⟨c5h, hcg, normPathsGo_idem hJ rest c4 c5h hcn⟩
  have hstable : ∀ p ∈ PATH_NORMALIZATION.drop 2, ∃ k rest, p = k :: rest ∧
      (tget root5 k = none
        ∨ ∃ c, tget root5 k = some c ∧ normPathsGo J c rest = .ok c) := by
    intro p hp
    have hp' : p = ["example", "", "path"] ∨ p = ["test", "", "path"]
        ∨ p = ["bench", "", "path"] ∨ p = ["package", "build"]
        ∨ p = ["dependencies", "", "path"] ∨ p = ["dev-dependencies", "", "path"]
        ∨ p = ["build-dependencies", "", "path"] ∨ p = ["patch", "", "", "path"]
        ∨ p = ["target", "", "dependencies", "", "path"] := by
      simpa [PATH_NORMALIZATION] using hp
    rcases hp' with rfl | rfl | rfl | rfl | rfl | rfl | rfl | rfl | rfl
    · exact ⟨_, _, rfl, key_stable (PATH_NORMALIZATION.take 2) "example" ["", "path"]
        (PATH_NORMALIZATION.drop 3) rfl (by decide) (by decide)⟩
    · exact ⟨_, _, rfl, key_stable (PATH_NORMALIZATION.take 3) "test" ["", "path"]
        (PATH_NORMALIZATION.drop 4) rfl (by decide) (by decide)⟩
    · exact ⟨_, _, rfl, key_stable (PATH_NORMALIZATION.take 4) "bench" ["", "path"]
        (PATH_NORMALIZATION.drop 5) rfl (by decide) (by decide)⟩
    · exact ⟨_, _, rfl, key_stable (PATH_NORMALIZATION.take 5) "package" ["build"]
        (PATH_NORMALIZATION.drop 6) rfl (by decide) (by decide)⟩
    · exact ⟨_, _, rfl, key_stable (PATH_NORMALIZATION.take 6) "dependencies" ["", "path"]
        (PATH_NORMALIZATION.drop 7) rfl (by decide) (by decide)⟩
    · exact ⟨_, _, rfl, key_stable (PATH_NORMALIZATION.take 7) "dev-dependencies"
        ["", "path"] (PATH_NORMALIZATION.drop 8) rfl (by decide) (by decide)⟩
    · exact ⟨_, _, rfl, key_stable (PATH_NORMALIZATION.take 8) "build-dependencies"
        ["", "path"] (PATH_NORMALIZATION.drop 9) rfl (by decide) (by decide)⟩
    · exact ⟨_, _, rfl, key_stable (PATH_NORMALIZATION.take 9) "patch" ["", "", "path"]
        (PATH_NORMALIZATION.drop 10) rfl (by decide) (by decide)⟩
    · exact ⟨_, _, rfl, key_stable (PATH_NORMALIZATION.take 10) "target"
        ["", "dependencies", "", "path"] (PATH_NORMALIZATION.drop 11) rfl
        (by decide) (by decide)⟩
  -- second-run patch and path normalization, by cases on lib/bin presence
  obtain ⟨root5', hpatch2, hfold2⟩ :
      ∃ r5', patch_all_targets root5 R stem = .ok r5'
        ∧ foldSteps J PATH_NORMALIZATION r5' = .ok root5 := by
    rcases hlib5 with ⟨hln3, hln5⟩ | ⟨L3, L4, L5, hgl3, hpatchL, hnormL, hgl5⟩
    · rcases hbin5 with ⟨hbn3, hbn5⟩ | ⟨bs3, bs4, bs5, hgb3, hmap, hmapn, hgb5, _⟩
      · -- both absent: contradicts the target invariant
        exfalso
        rcases hdef5 with hsome | ⟨bins, hb, _⟩
        · rw [hln5] at hsome
          exact absurd hsome (by simp)
        · rw [hbn5] at hb
          exact absurd hb (by simp)
      · -- lib absent, bin present
        obtain ⟨bsm, hmapm, hmapnorm2⟩ :=
          mapME_cycle (fun a b c hab hbc => patch_norm_cycle hab hbc)
            bs3 bs4 bs5 hmap hmapn
        refine ⟨tinsert root5 "bin" (.arr bsm), ?_, ?_⟩
        · unfold patch_all_targets
          simp only []
          rw [hln5]
          simp only []
          rw [hgb5]
          simp only [hmapm]
        · show foldSteps J (["lib", "path"] :: ["bin", "", "path"] ::
            PATH_NORMALIZATION.drop 2) _ = .ok root5
          have hstep1 : normalizePathsStep J (tinsert root5 "bin" (.arr bsm))
              ["lib", "path"] = .ok (tinsert root5 "bin" (.arr bsm)) := by
            unfold normalizePathsStep
            simp only []
            rw [tget_tinsert_ne _ _ _ _ (by decide), hln5]
          have hstep2 : normalizePathsStep J (tinsert root5 "bin" (.arr bsm))
              ["bin", "", "path"] = .ok root5 := by
            unfold normalizePathsStep
            simp only []
            rw [tget_tinsert_same]
            have hn2 : normPathsGo J (.arr bsm) ["", "path"] = .ok (.arr bs5) := by
              rw [normPathsGo_interior]
              simp only [if_pos rfl, hmapnorm2]
              simp
            simp only [hn2]
            rw [tinsert_tinsert, tinsert_tget_same root5 _ _ hgb5]
          simp only [foldSteps, hstep1, hstep2]
          exact foldSteps_stable _ root5 hstable
    · obtain ⟨Lm, hpatchLm, hnormLm⟩ := patch_norm_cycle hpatchL hnormL
      rcases hbin5 with ⟨hbn3, hbn5⟩ | ⟨bs3, bs4, bs5, hgb3, hmap, hmapn, hgb5, _⟩
      · -- lib present, bin absent
        refine ⟨tinsert root5 "lib" Lm, ?_, ?_⟩
        · unfold patch_all_targets
          simp only []
          rw [hgl5]
          simp only [hpatchLm]
          rw [tget_tinsert_ne _ _ _ _ (by decide), hbn5]
        · show foldSteps J (["lib", "path"] :: ["bin", "", "path"] ::
            PATH_NORMALIZATION.drop 2) _ = .ok root5
          have hstep1 : normalizePathsStep J (tinsert root5 "lib" Lm)
              ["lib", "path"] = .ok root5 := by
            unfold normalizePathsStep
            simp only []
            rw [tget_tinsert_same]
            simp only [hnormLm]
            rw [tinsert_tinsert, tinsert_tget_same root5 _ _ hgl5]
          have hstep2 : normalizePathsStep J root5 ["bin", "", "path"] = .ok root5 := by
            unfold normalizePathsStep
            simp only []
            rw [hbn5]
          simp only [foldSteps, hstep1, hstep2]
          exact foldSteps_stable _ root5 hstable
      · -- lib present, bin present
        obtain ⟨bsm, hmapm, hmapnorm2⟩ :=
          mapME_cycle (fun a b c hab hbc => patch_norm_cycle hab hbc)
            bs3 bs4 bs5 hmap hmapn
        refine ⟨tinsert (tinsert root5 "lib" Lm) "bin" (.arr bsm), ?_, ?_⟩
        · unfold patch_all_targets
          simp only []
          rw [hgl5]
          simp only [hpatchLm]
          rw [tget_tinsert_ne _ _ _ _ (by decide), hgb5]
          simp only [hmapm]
        · show foldSteps J (["lib", "path"] :: ["bin", "", "path"] ::
            PATH_NORMALIZATION.drop 2) _ = .ok root5
          have hstep1 : normalizePathsStep J
              (tinsert (tinsert root5 "lib" Lm) "bin" (.arr bsm)) ["lib", "path"] =
              .ok (tinsert root5 "bin" (.arr bsm)) := by
            unfold normalizePathsStep
            simp only []
            rw [tget_tinsert_ne _ _ _ _ (by decide), tget_tinsert_same]
            simp only [hnormLm]
            rw [← tinsert_comm_left (tinsert root5 "lib" Lm) "lib" "bin" L5 (.arr bsm)
              (by decide) (by rw [tget_tinsert_same]; rfl)]
            rw [tinsert_tinsert, tinsert_tget_same root5 _ _ hgl5]
          have hstep2 : normalizePathsStep J (tinsert root5 "bin" (.arr bsm))
              ["bin", "", "path"] = .ok root5 := by
            unfold normalizePathsStep
            simp only []
            rw [tget_tinsert_same]
            have hn2 : normPathsGo J (.arr bsm) ["", "path"] = .ok (.arr bs5) := by
              rw [normPathsGo_interior]
              simp only [if_pos rfl, hmapnorm2]
              simp
            simp only [hn2]
            rw [tinsert_tinsert, tinsert_tget_same root5 _ _ hgb5]
          simp only [foldSteps, hstep1, hstep2]
          exact foldSteps_stable _ root5 hstable
  -- assemble the second run
  unfold normalize_manifest
  simp only []
  rw [show strip_custom_section root5 = root5 from tremove_absent root5 _ hcw5]
  rw [ensure_valid_package_stable hc5get hp5n hp5v hp5e]
  simp only []
  rw [ensure_target_stable ⟨harr5, hdef5⟩]
  simp only []
  rw [hpatch2]
  simp only []
  rw [show normalize_paths J root5' = .ok root5 from hfold2]

/-- Witness for C8 at a concrete document: normalizing the already-normalized
empty manifest yields it back unchanged. -/
theorem c8_witness :
    normalize_manifest (fun s => s) "/s/foo.rs" "foo"
      (.table [("package", .table [("name", .str "foo"), ("version", .str "0.1.0"),
          ("edition", .str "2018")]),
        ("bin", .arr [.table [("path", .str "/s/foo.rs"), ("name", .str "foo")]])]) =
      .ok (.table [("package", .table [("name", .str "foo"), ("version", .str "0.1.0"),
          ("edition", .str "2018")]),
        ("bin", .arr [.table [("path", .str "/s/foo.rs"), ("name", .str "foo")]])]) := by
  refine c8_normalize_manifest_idempotent (fun s => s) "/s/foo.rs" "foo" [] _
    (fun s => rfl) rfl ?_
  simp [normalize_manifest, strip_custom_section, tremove, ensure_valid_package,
    ensure_at_least_a_single_target, patch_all_targets, patch_target, normalize_paths,
    PATH_NORMALIZATION, foldSteps, normalizePathsStep, normPathsGo, normTableItem,
    mapME, mapMEntries, tget, tinsert, tcontains]

end CargoWop

section SanityChecks
open CargoWop
example : parse_args ["wop", "example.rs"] = .ok (.defaultAction ⟨"example.rs", []⟩) := by decide
example : parse_args ["wop", "run-debug", "example.rs"] = .ok (.genericCargoCall ⟨"run", "example.rs", []⟩) := by decide
example : parse_args ["wop", "build", "example.rs"] = .ok (.buildCargoCall ⟨"build", "example.rs", ["--release"]⟩) := by decide
example : parse_args ["wop", "run", "example.rs", "--verbose", "--", "arg"] =
    .ok (.genericCargoCall ⟨"run", "example.rs", ["--verbose", "--release", "--", "arg"]⟩) := by decide
example : parse_args ["wop", "run-debug", "example.rs", "--verbose", "--", "arg"] =
    .ok (.genericCargoCall ⟨"run", "example.rs", ["--verbose", "--", "arg"]⟩) := by decide
example : parse_args ["wop", "manifest", "example.rs"] = .ok (.manifest "example.rs") := by decide
example : (parse_args ["wop", "manifest", "example.rs", "second-arg"]).isOk = false := by decide
example : hasExtension "example" = false := by decide
example : hasExtension ".gitignore" = false := by decide
example : hasExtension "foo/bar.rs" = true := by decide

-- merge_default_args: the source's own unit tests
example : merge_default_args ⟨"foo.rs", []⟩ none = some ["wop", "run", "foo.rs"] := by decide
example : merge_default_args ⟨"foo.rs", ["--", "hello", "world"]⟩ none =
    some ["wop", "run", "foo.rs", "--", "hello", "world"] := by decide
example : merge_default_args ⟨"foo.rs", ["test", "--", "hello", "world"]⟩ (some []) =
    some ["wop", "test", "foo.rs", "--", "hello", "world"] := by decide
example : merge_default_args ⟨"foo.rs", []⟩ (some ["build", "--target", "wasm32-unknown-unknown"]) =
    some ["wop", "build", "foo.rs", "--target", "wasm32-unknown-unknown"] := by decide
-- the panic case: empty default action and no args
example : merge_default_args ⟨"foo.rs", []⟩ (some []) = none := by decide
-- a default action that itself resolves to DefaultAction is rejected
example : defaultActionStep ⟨"foo.rs", []⟩ (some ["x.rs"]) =
    .error "Recursion detected in default action" := by decide

-- parse_build_output
example : parse_build_output
    [ .obj [("reason", .str "compiler-artifact"), ("package_id", .str "myproj 0.1.0"),
        ("filenames", .arr [.str "target/release/a.out"])],
      .obj [("reason", .str "compiler-artifact"), ("package_id", .str "dep 0.1.0"),
        ("filenames", .arr [.str "target/release/dep.out"])] ] "myproj" =
    .ok ["target/release/a.out"] := by decide

-- copy_build_artifacts
example : copy_build_artifacts ["t/a.out", "t/b.out", "t/d.out"]
    ⟨[("a.out", ""), ("b.out", "c.out")], none⟩ =
    .ok [("t/b.out", "c.out"), ("t/d.out", "d.out")] := by decide

-- extract_manifest: the source's own unit test shape
example : extract_manifest
    ["//! cargo-wop".toList, "//!".toList, "//! ```cargo".toList,
     "//! [dependencies]".toList, "//! anyhow = \"1.0\"".toList, "//! ```".toList,
     "//!".toList, "".toList, "use std::fs;".toList] =
    .ok (some ("[dependencies]\nanyhow = \"1.0\"\n".toList)) := by decide
-- no block: plain code from the first line
example : extract_manifest ["fn main()".toList] = .ok none := by decide
-- no block: leading comments without markers
example : extract_manifest ["//! hello".toList, "fn main()".toList] = .ok none := by decide
-- comments only, end of input before any block
example : extract_manifest ["//! hello".toList] = .ok none := by decide
-- end of input inside the block
example : extract_manifest ["//! ```cargo".toList, "//! x = 1".toList] =
    .error "Incomplete manifest" := by decide
-- second open marker inside the block
example : extract_manifest ["//! ```cargo".toList, "//! ```cargo".toList] =
    .error "Invalid manifest" := by decide
-- non-comment line inside the block
example : extract_manifest ["//! ```cargo".toList, "code".toList] =
    .error "Invalid manifest" := by decide
-- the round trip loses leading whitespace: wrap " x" and get back "x\n"
example : extract_manifest (wrapManifest [" x".toList]) = .ok (some ("x\n".toList)) := by decide
example : joinLines [" x".toList] = " x\n".toList := by decide

-- normalization: scalar dependency entries are silently skipped
example : normalize_paths (fun s => s)
    [("dependencies", .table [("anyhow", .str "1.0")])] =
    .ok [("dependencies", .table [("anyhow", .str "1.0")])] := by
  simp [normalize_paths, PATH_NORMALIZATION, foldSteps, normalizePathsStep, normPathsGo,
    normTableItem, mapME, mapMEntries, tget, tinsert]

-- full pipeline on the empty manifest
example : normalize_manifest (fun s => s) "/s/foo.rs" "foo" (.table []) =
    .ok (.table
      [("package", .table [("name", .str "foo"), ("version", .str "0.1.0"),
        ("edition", .str "2018")]),
       ("bin", .arr [.table [("path", .str "/s/foo.rs"), ("name", .str "foo")]])]) := by
  simp [normalize_manifest, strip_custom_section, tremove, ensure_valid_package,
    ensure_at_least_a_single_target, patch_all_targets, patch_target, normalize_paths,
    PATH_NORMALIZATION, foldSteps, normalizePathsStep, normPathsGo, normTableItem,
    mapME, mapMEntries, tget, tinsert, tcontains]
end SanityChecks
